import Mathlib

/-!
Verification of the greedy school-schedule generator (`main.py`).

The Python program builds, for each student group, the list of subjects of its
specialty that are taught in the group's current semester, and then walks the
term week by week and weekday by weekday, skipping configured practice
(blackout) days, assigning at most one lesson per pending subject per day to
the first eligible teacher, and depleting each subject's remaining-hours
budget until it is exhausted, at which point the subject is deleted from the
group's pending mapping.

The embedding below is a direct translation of the source:
Python dicts (which preserve insertion order) are modelled as association
lists with first-match lookup, in-place overwrite and in-place delete;
Python ints holding hour counts are modelled as `Int`; week and day indices
and semester numbers, which are only ever compared for equality or generated
by `range`, are modelled as `Nat`.  `math.ceil(a / b)` on non-negative-weeks
input is modelled as exact ceiling division (the source only ever divides by
`weeks_per_semester`, which is positive in every run the claims talk about).
-/

namespace Sched

/-- First-match association-list lookup; models Python `d[k]` / `k in d`
on dicts (whose keys are unique, so first match is the match). -/
def alookup {κ α : Type} [DecidableEq κ] (k : κ) : List (κ × α) → Option α
  | [] => none
  | p :: rest => if p.1 = k then some p.2 else alookup k rest

/-- Association-list assignment `d[k] = v`: overwrite the first binding of
`k` in place, keeping its position, else append a new binding. -/
def aset {κ α : Type} [DecidableEq κ] (k : κ) (v : α) : List (κ × α) → List (κ × α)
  | [] => [(k, v)]
  | p :: rest => if p.1 = k then (k, v) :: rest else p :: aset k v rest

/-- `Specialty` dataclass: `subjects_per_semester` maps a subject name to a
mapping from semester number to the required total hours. -/
structure Specialty where
  name : String
  subjects_per_semester : List (String × List (Nat × Int))
deriving DecidableEq, Repr

/-- `Teacher` dataclass: one subject, the group names the teacher may teach,
and an optional list of preferred weekday indices (empty = every day). -/
structure Teacher where
  name : String
  subject : String
  groups : List String
  preferred_days : List Nat
deriving DecidableEq, Repr

/-- `Subject` dataclass, as produced by subject expansion. -/
structure Subject where
  name : String
  total_hours : Int
  groups : List String
  semester : Nat
deriving DecidableEq, Repr

/-- `Group` dataclass: a group studies one specialty in one current semester. -/
structure Group where
  name : String
  specialty : Specialty
  current_semester : Nat
deriving DecidableEq, Repr

/-- The per-(group, subject) allocation working-state dict built at the start
of `generate_schedule`. -/
structure SubjectData where
  total_hours : Int
  hours_per_week : Int
  remaining_hours : Int
  semester : Nat
deriving DecidableEq, Repr

/-- A lesson record as appended to a day's schedule. -/
structure Lesson where
  group : String
  subject : String
  teacher : String
  semester : Nat
deriving DecidableEq, Repr

/-- The scheduler's constructor data. -/
structure SimplifiedSchoolScheduler where
  teachers : List Teacher
  groups : List Group
  practice_days : List (Nat × Nat)
  weeks_per_semester : Nat
deriving DecidableEq, Repr

/-- `_generate_subjects`: for every group, for every subject of its
specialty, emit one `Subject` scoped to that group whenever the group's
current semester has an hour entry for the subject. -/
def _generate_subjects (groups : List Group) : List Subject :=
  groups.foldl (fun subjects group =>
    group.specialty.subjects_per_semester.foldl (fun subjects p =>
      match alookup group.current_semester p.2 with
      | some h => subjects ++ [{ name := p.1, total_hours := h,
                                 groups := [group.name],
                                 semester := group.current_semester }]
      | none => subjects) subjects) []

/-- `self.subjects` as set in `__init__`. -/
def SimplifiedSchoolScheduler.subjects (s : SimplifiedSchoolScheduler) : List Subject :=
  _generate_subjects s.groups

/-- `_group_subjects`: partition the flat subject list by owning group name,
preserving production order. -/
def _group_subjects (subjects : List Subject) : List (String × List Subject) :=
  subjects.foldl (fun gs subject =>
    subject.groups.foldl (fun gs group =>
      match alookup group gs with
      | some l => aset group (l ++ [subject]) gs
      | none => aset group [subject] gs) gs) []

/-- `self.group_subjects` as set in `__init__`. -/
def SimplifiedSchoolScheduler.group_subjects (s : SimplifiedSchoolScheduler) :
    List (String × List Subject) :=
  _group_subjects s.subjects

/-- `is_valid_day`: a (week, day) pair is valid when it is not a practice day. -/
def SimplifiedSchoolScheduler.is_valid_day (s : SimplifiedSchoolScheduler)
    (week day : Nat) : Bool :=
  decide ((week, day) ∉ s.practice_days)

/-- `max(1, ceil(total_hours / weeks_per_semester))` from line 81 of the
source; `Int.ediv (t + w - 1) w` is exact ceiling division for `w > 0`
(proved against the mathematical ceiling in the claim-C5 theorem below). -/
def hours_per_week (total_hours : Int) (weeks_per_semester : Nat) : Int :=
  max 1 (Int.ediv (total_hours + (weeks_per_semester : Int) - 1) (weeks_per_semester : Int))

/-- The working-state dict created for one subject of one group. -/
def initSubjectData (weeks : Nat) (subject : Subject) : SubjectData :=
  { total_hours := subject.total_hours
    hours_per_week := hours_per_week subject.total_hours weeks
    remaining_hours := subject.total_hours
    semester := subject.semester }

/-- The allocator's mutable state: group name → subject name → working state. -/
abbrev GSH := List (String × List (String × SubjectData))

/-- Construction of `group_subject_hours` at the top of `generate_schedule`. -/
def init_group_subject_hours (weeks : Nat)
    (group_subjects : List (String × List Subject)) : GSH :=
  group_subjects.foldl (fun acc p =>
    aset p.1 (p.2.foldl (fun inner subject =>
      aset subject.name (initSubjectData weeks subject) inner) []) acc) []

/-- The allocator state right before the week loop starts. -/
def SimplifiedSchoolScheduler.init_state (s : SimplifiedSchoolScheduler) : GSH :=
  init_group_subject_hours s.weeks_per_semester s.group_subjects

/-- The eligibility filter from lines 103-108: same subject, group among the
teacher's groups, and no day preference or the day among the preferences. -/
def teacherOk (t : Teacher) (subject_name group : String) (day : Nat) : Bool :=
  decide (t.subject = subject_name ∧ group ∈ t.groups ∧
          (t.preferred_days = [] ∨ day ∈ t.preferred_days))

/-- `available_teachers` list comprehension. -/
def available_teachers (teachers : List Teacher) (subject_name group : String)
    (day : Nat) : List Teacher :=
  teachers.filter (fun t => teacherOk t subject_name group day)

/-- `available_teachers[0]` when the list is non-empty. -/
def pickTeacher (teachers : List Teacher) (subject_name group : String)
    (day : Nat) : Option Teacher :=
  (available_teachers teachers subject_name group day).head?

/-- The body of the `for subject_name, subject_data in list(subjects_info.items())`
loop: returns the day's lessons for the group in iteration order and the
mutated `subjects_info` dict (entry updated in place, or deleted once its
remaining hours hit ≤ 0).  Dict keys are unique, so iterating the snapshot
and mutating/deleting is the same as this structural pass. -/
def processSubjects (teachers : List Teacher) (group : String) (day : Nat) :
    List (String × SubjectData) → List Lesson × List (String × SubjectData)
  | [] => ([], [])
  | (subject_name, subject_data) :: rest =>
    let r := processSubjects teachers group day rest
    if subject_data.remaining_hours > 0 then
      match pickTeacher teachers subject_name group day with
      | some teacher =>
        let lesson_hours := min subject_data.hours_per_week subject_data.remaining_hours
        let new_rem := subject_data.remaining_hours - lesson_hours
        let lesson : Lesson := { group := group, subject := subject_name,
                                 teacher := teacher.name,
                                 semester := subject_data.semester }
        if new_rem ≤ 0 then (lesson :: r.1, r.2)
        else (lesson :: r.1, (subject_name,
              { subject_data with remaining_hours := new_rem }) :: r.2)
      | none => (r.1, (subject_name, subject_data) :: r.2)
    else (r.1, (subject_name, subject_data) :: r.2)

/-- One day's cell: group name → that group's lessons for the day. -/
abbrev DaySched := List (String × List Lesson)

/-- The `for group, subjects_info in group_subject_hours.items()` loop of one
valid day: builds `day_schedule` (one entry per group, in state order) and
the mutated state. -/
def processDay (teachers : List Teacher) (day : Nat) : GSH → DaySched × GSH
  | [] => ([], [])
  | (group, subjects_info) :: rest =>
    let q := processSubjects teachers group day subjects_info
    let r := processDay teachers day rest
    ((group, q.1) :: r.1, (group, q.2) :: r.2)

/-- One week of the output: day index → day cell (invalid days are skipped,
so they simply have no entry). -/
abbrev WeekSched := List (Nat × DaySched)

/-- The full output: week index → week schedule. -/
abbrev Schedule := List (Nat × WeekSched)

/-- The `for day in range(5)` loop (here over an explicit day list):
invalid (practice) days are skipped entirely — `continue` in the source. -/
def processWeekDays (s : SimplifiedSchoolScheduler) (week : Nat) :
    List Nat → GSH → WeekSched × GSH
  | [], st => ([], st)
  | day :: ds, st =>
    if s.is_valid_day week day then
      let q := processDay s.teachers day st
      let r := processWeekDays s week ds q.2
      ((day, q.1) :: r.1, r.2)
    else processWeekDays s week ds st

/-- The `for week in range(self.weeks_per_semester)` loop (over an explicit
week list): every week gets an entry, holding only its valid days. -/
def processWeeks (s : SimplifiedSchoolScheduler) :
    List Nat → GSH → Schedule × GSH
  | [], st => ([], st)
  | w :: ws, st =>
    let q := processWeekDays s w (List.range 5) st
    let r := processWeeks s ws q.2
    ((w, q.1) :: r.1, r.2)

/-- `generate_schedule`: the returned schedule structure. -/
def SimplifiedSchoolScheduler.generate_schedule (s : SimplifiedSchoolScheduler) : Schedule :=
  (processWeeks s (List.range s.weeks_per_semester) s.init_state).1

/-- The allocation working-state as it stands when `generate_schedule`
returns (the same run as `generate_schedule`, second component). -/
def SimplifiedSchoolScheduler.final_state (s : SimplifiedSchoolScheduler) : GSH :=
  (processWeeks s (List.range s.weeks_per_semester) s.init_state).2

/-! ### Analysis layer: per-entry step functions and the flattened run -/

/-- The lesson (if any) the loop body emits for one `(subject_name, data)`
entry of a group's pending dict on a given day. -/
def stepLesson (teachers : List Teacher) (group : String) (day : Nat)
    (p : String × SubjectData) : Option Lesson :=
  if p.2.remaining_hours > 0 then
    match pickTeacher teachers p.1 group day with
    | some teacher => some { group := group, subject := p.1,
                             teacher := teacher.name, semester := p.2.semester }
    | none => none
  else none

/-- What one day does to one `(subject_name, data)` entry: `none` means the
entry got deleted (budget exhausted on this day). -/
def stepData (teachers : List Teacher) (group : String) (day : Nat)
    (p : String × SubjectData) : Option (String × SubjectData) :=
  if p.2.remaining_hours > 0 then
    match pickTeacher teachers p.1 group day with
    | some _ =>
      let lesson_hours := min p.2.hours_per_week p.2.remaining_hours
      let new_rem := p.2.remaining_hours - lesson_hours
      if new_rem ≤ 0 then none
      else some (p.1, { p.2 with remaining_hours := new_rem })
    | none => some p
  else some p

/-- The weekdays of week `w` that survive the blackout filter, in order. -/
def SimplifiedSchoolScheduler.validDays (s : SimplifiedSchoolScheduler) (week : Nat) : List Nat :=
  (List.range 5).filter (fun d => s.is_valid_day week d)

/-- The chronological weekday sequence of all scheduling slots of the weeks
in `ws` (blackout days removed). -/
def allDaysOf (s : SimplifiedSchoolScheduler) : List Nat → List Nat
  | [] => []
  | w :: ws => s.validDays w ++ allDaysOf s ws

/-- The chronological weekday sequence of every scheduling slot of the run. -/
def SimplifiedSchoolScheduler.allDays (s : SimplifiedSchoolScheduler) : List Nat :=
  allDaysOf s (List.range s.weeks_per_semester)

/-- Pure state evolution over a list of (already validated) days. -/
def runState (teachers : List Teacher) : List Nat → GSH → GSH
  | [], st => st
  | d :: ds, st => runState teachers ds (processDay teachers d st).2

/-! ### Association-list lemmas -/

theorem alookup_eq_none_iff {κ α : Type} [DecidableEq κ] (k : κ) (l : List (κ × α)) :
    alookup k l = none ↔ k ∉ l.map Prod.fst := by
  induction l with
  | nil => simp [alookup]
  | cons p rest ih =>
    by_cases h : p.1 = k
    · simp [alookup, h]
    · simp [alookup, h, ih, Ne.symm h]

theorem alookup_mem {κ α : Type} [DecidableEq κ] {k : κ} {l : List (κ × α)} {v : α}
    (h : alookup k l = some v) : (k, v) ∈ l := by
  induction l with
  | nil => simp [alookup] at h
  | cons p rest ih =>
    by_cases hk : p.1 = k
    · simp only [alookup, if_pos hk] at h
      subst hk
      have hv := Option.some.inj h
      subst hv
      exact List.mem_cons_self p rest
    · simp only [alookup, if_neg hk] at h
      exact List.mem_cons_of_mem _ (ih h)

theorem alookup_isSome_iff {κ α : Type} [DecidableEq κ] (k : κ) (l : List (κ × α)) :
    (alookup k l).isSome = true ↔ k ∈ l.map Prod.fst := by
  cases h : alookup k l with
  | none =>
    simp only [Option.isSome_none, Bool.false_eq_true, false_iff]
    exact (alookup_eq_none_iff k l).mp h
  | some v =>
    simp only [Option.isSome_some, true_iff]
    exact List.mem_map.mpr ⟨(k, v), alookup_mem h, rfl⟩

theorem mem_aset {κ α : Type} [DecidableEq κ] {k : κ} {v : α} {l : List (κ × α)} {p : κ × α}
    (h : p ∈ aset k v l) : p = (k, v) ∨ p ∈ l := by
  induction l with
  | nil => simpa [aset] using h
  | cons q rest ih =>
    by_cases hk : q.1 = k
    · simp only [aset, if_pos hk, List.mem_cons] at h
      rcases h with h | h
      · exact Or.inl h
      · exact Or.inr (List.mem_cons_of_mem _ h)
    · simp only [aset, if_neg hk, List.mem_cons] at h
      rcases h with h | h
      · exact Or.inr (by simp [h])
      · rcases ih h with h | h
        · exact Or.inl h
        · exact Or.inr (List.mem_cons_of_mem _ h)

theorem mem_keys_aset {κ α : Type} [DecidableEq κ] (k : κ) (v : α) (l : List (κ × α)) (a : κ) :
    a ∈ (aset k v l).map Prod.fst ↔ a = k ∨ a ∈ l.map Prod.fst := by
  induction l with
  | nil => simp [aset]
  | cons q rest ih =>
    by_cases hk : q.1 = k
    · subst hk
      rw [show aset q.1 v (q :: rest) = (q.1, v) :: rest from by simp [aset]]
      simp only [List.map_cons, List.mem_cons]
      tauto
    · simp only [aset, if_neg hk, List.map_cons, List.mem_cons, ih]
      tauto

theorem nodup_keys_aset {κ α : Type} [DecidableEq κ] (k : κ) (v : α) {l : List (κ × α)}
    (h : (l.map Prod.fst).Nodup) : ((aset k v l).map Prod.fst).Nodup := by
  induction l with
  | nil => simp [aset]
  | cons q rest ih =>
    simp only [List.map_cons, List.nodup_cons] at h
    by_cases hk : q.1 = k
    · subst hk
      simpa [aset] using h
    · simp only [aset, if_neg hk, List.map_cons, List.nodup_cons]
      refine ⟨fun hq => ?_, ih h.2⟩
      rcases (mem_keys_aset k v rest q.1).mp hq with h1 | h1
      · exact hk h1
      · exact h.1 h1

/-- `head?` of a filtered list is the first element satisfying the predicate. -/
theorem head?_filter_eq (p : α → Bool) (l : List α) :
    (l.filter p).head? = l.find? p := by
  induction l with
  | nil => rfl
  | cons a rest ih =>
    by_cases h : p a
    · simp [List.filter_cons, List.find?_cons, h]
    · simp only [List.filter_cons, List.find?_cons] at *
      simp [h, ih]

theorem teacherOk_iff (t : Teacher) (subject_name group : String) (day : Nat) :
    teacherOk t subject_name group day = true ↔
      t.subject = subject_name ∧ group ∈ t.groups ∧
        (t.preferred_days = [] ∨ day ∈ t.preferred_days) := by
  simp [teacherOk]

/-! ### Characterizing the loop bodies -/

theorem processSubjects_eq (teachers : List Teacher) (group : String) (day : Nat)
    (l : List (String × SubjectData)) :
    processSubjects teachers group day l =
      (l.filterMap (stepLesson teachers group day),
       l.filterMap (stepData teachers group day)) := by
  induction l with
  | nil => rfl
  | cons p rest ih =>
    obtain ⟨n, d⟩ := p
    simp only [processSubjects, ih, List.filterMap_cons]
    by_cases h : d.remaining_hours > 0
    · simp only [stepLesson, stepData, if_pos h]
      cases hp : pickTeacher teachers n group day with
      | none => simp
      | some t =>
        by_cases h2 : d.remaining_hours - min d.hours_per_week d.remaining_hours ≤ 0
        · simp [h2]
        · simp [h2]
    · simp [stepLesson, stepData, if_neg h]

theorem processDay_eq (teachers : List Teacher) (day : Nat) (st : GSH) :
    processDay teachers day st =
      (st.map (fun p => (p.1, (processSubjects teachers p.1 day p.2).1)),
       st.map (fun p => (p.1, (processSubjects teachers p.1 day p.2).2))) := by
  induction st with
  | nil => rfl
  | cons p rest ih =>
    obtain ⟨g, info⟩ := p
    simp [processDay, ih]

/-- Keys of the state are untouched by a day of processing. -/
theorem keys_processDay (teachers : List Teacher) (day : Nat) (st : GSH) :
    ((processDay teachers day st).2.map Prod.fst) = st.map Prod.fst := by
  rw [processDay_eq]
  simp

theorem alookup_map_key {κ α β : Type} [DecidableEq κ] (k : κ) (f : κ → α → β)
    (l : List (κ × α)) :
    alookup k (l.map (fun p => (p.1, f p.1 p.2))) = (alookup k l).map (f k) := by
  induction l with
  | nil => rfl
  | cons p rest ih =>
    by_cases h : p.1 = k
    · subst h
      simp [alookup]
    · simp [alookup, h, ih]

theorem stepData_key (teachers : List Teacher) (group : String) (day : Nat)
    {p q : String × SubjectData} (h : stepData teachers group day p = some q) :
    q.1 = p.1 := by
  unfold stepData at h
  split at h
  · split at h
    · dsimp only at h
      split at h
      · exact absurd h (by simp)
      · cases h
        rfl
    · cases h
      rfl
  · cases h
    rfl

theorem keys_filterMap_sublist {κ α β : Type} (f : κ × α → Option (κ × β))
    (hf : ∀ p q, f p = some q → q.1 = p.1) (l : List (κ × α)) :
    ((l.filterMap f).map Prod.fst).Sublist (l.map Prod.fst) := by
  induction l with
  | nil => simp
  | cons p rest ih =>
    rw [List.filterMap_cons]
    cases hq : f p with
    | none => exact ih.trans (List.sublist_cons_self _ _)
    | some q =>
      simp only [List.map_cons]
      rw [hf p q hq]
      exact ih.cons₂ _

theorem alookup_filterMap {κ α β : Type} [DecidableEq κ]
    (f : κ × α → Option (κ × β)) (hf : ∀ p q, f p = some q → q.1 = p.1)
    {l : List (κ × α)} (hnd : (l.map Prod.fst).Nodup) (k : κ) :
    alookup k (l.filterMap f) =
      (alookup k l).bind (fun v => (f (k, v)).map Prod.snd) := by
  induction l with
  | nil => rfl
  | cons p rest ih =>
    simp only [List.map_cons, List.nodup_cons] at hnd
    rw [List.filterMap_cons]
    by_cases hk : p.1 = k
    · subst hk
      have hrest : alookup p.1 (rest.filterMap f) = none := by
        rw [alookup_eq_none_iff]
        intro hmem
        exact hnd.1 ((keys_filterMap_sublist f hf rest).subset hmem)
      cases hq : f p with
      | none =>
        rw [hrest]
        have : f (p.1, p.2) = none := by rwa [show (p.1, p.2) = p from rfl]
        simp [alookup, this]
      | some q =>
        have hkey := hf p q hq
        have : f (p.1, p.2) = some q := by rwa [show (p.1, p.2) = p from rfl]
        simp [alookup, hkey, this]
    · cases hq : f p with
      | none =>
        rw [ih hnd.2]
        simp [alookup, hk]
      | some q =>
        have hkey := hf p q hq
        have hqk : ¬ q.1 = k := fun he => hk (hkey ▸ he)
        simp only [alookup, if_neg hqk, if_neg hk]
        exact ih hnd.2

/-! ### The state invariant: outer and inner dict keys are unique -/

/-- Both dict levels of the allocator state have unique keys, as Python
dicts do by construction. -/
def Inv (st : GSH) : Prop :=
  (st.map Prod.fst).Nodup ∧ ∀ p ∈ st, (p.2.map Prod.fst).Nodup

/-- The working-state record of pair `(g, subj)` in state `st`. -/
def remOf (st : GSH) (g subj : String) : Option SubjectData :=
  (alookup g st).bind (alookup subj)

/-- What one processed day does to one pair's working-state record:
the pair's evolution depends only on its own record, since teacher
availability does not depend on the allocator state. -/
def pairDay (teachers : List Teacher) (g subj : String) (day : Nat) :
    Option SubjectData → Option SubjectData
  | none => none
  | some d => (stepData teachers g day (subj, d)).map Prod.snd

theorem Inv_processDay (teachers : List Teacher) (day : Nat) {st : GSH}
    (h : Inv st) : Inv (processDay teachers day st).2 := by
  rw [processDay_eq]
  constructor
  · simpa using h.1
  · intro p hp
    simp only [List.mem_map] at hp
    obtain ⟨q, hq, rfl⟩ := hp
    rw [processSubjects_eq]
    exact ((keys_filterMap_sublist _ (fun a b => stepData_key teachers q.1 day) q.2)).nodup
      (h.2 q hq)

theorem remOf_processDay (teachers : List Teacher) (day : Nat) {st : GSH}
    (h : Inv st) (g subj : String) :
    remOf (processDay teachers day st).2 g subj =
      pairDay teachers g subj day (remOf st g subj) := by
  rw [processDay_eq]
  simp only [remOf]
  rw [alookup_map_key g (fun g info => (processSubjects teachers g day info).2) st]
  cases hg : alookup g st with
  | none => rfl
  | some info =>
    simp only [Option.map_some', Option.some_bind]
    rw [processSubjects_eq]
    have hnd : (info.map Prod.fst).Nodup := h.2 (g, info) (alookup_mem hg)
    rw [alookup_filterMap _ (fun a b => stepData_key teachers g day) hnd subj]
    cases alookup subj info <;> rfl

/-! ### Counting a pair's lessons -/

def lessonMatches (g subj : String) (l : Lesson) : Bool :=
  decide (l.group = g ∧ l.subject = subj)

/-- Number of lesson records for pair `(g, subj)` in a list of lessons. -/
def countIn (ls : List Lesson) (g subj : String) : Nat :=
  (ls.filter (lessonMatches g subj)).length

/-- Number of lesson records for pair `(g, subj)` in one day cell. -/
def dayCount (cells : DaySched) (g subj : String) : Nat :=
  (cells.map (fun p => countIn p.2 g subj)).sum

/-- Whether the pair receives a lesson on `day` given its current record:
still pending and some teacher passes the filter. -/
def emits (teachers : List Teacher) (g subj : String) (day : Nat) :
    Option SubjectData → Bool
  | none => false
  | some d => decide (d.remaining_hours > 0) &&
      (pickTeacher teachers subj g day).isSome

theorem stepLesson_fields (teachers : List Teacher) (group : String) (day : Nat)
    {p : String × SubjectData} {l : Lesson}
    (h : stepLesson teachers group day p = some l) :
    l.group = group ∧ l.subject = p.1 := by
  unfold stepLesson at h
  split at h
  · split at h
    · cases h
      exact ⟨rfl, rfl⟩
    · exact absurd h (by simp)
  · exact absurd h (by simp)

theorem countIn_stepLesson_of_not_mem (teachers : List Teacher) (g : String) (day : Nat)
    (info : List (String × SubjectData)) (subj : String)
    (hout : subj ∉ info.map Prod.fst) :
    countIn (info.filterMap (stepLesson teachers g day)) g subj = 0 := by
  simp only [countIn, List.length_eq_zero, List.filter_eq_nil]
  intro l hl
  simp only [List.mem_filterMap] at hl
  obtain ⟨p, hp, hstep⟩ := hl
  obtain ⟨-, hsubj⟩ := stepLesson_fields teachers g day hstep
  simp only [lessonMatches, decide_eq_true_eq, not_and]
  intro _
  rw [hsubj]
  exact fun he => hout (he ▸ List.mem_map_of_mem Prod.fst hp)

theorem countIn_cons (l : Lesson) (ls : List Lesson) (g subj : String) :
    countIn (l :: ls) g subj =
      (if lessonMatches g subj l then 1 else 0) + countIn ls g subj := by
  simp only [countIn, List.filter_cons]
  split
  · simp [Nat.add_comm]
  · simp

/-- A `stepLesson` that fires is exactly an `emits` verdict of `true`. -/
theorem stepLesson_isSome_iff (teachers : List Teacher) (g : String) (day : Nat)
    (n : String) (d : SubjectData) :
    (stepLesson teachers g day (n, d)).isSome =
      emits teachers g n day (some d) := by
  unfold stepLesson emits
  by_cases h1 : d.remaining_hours > 0
  · rw [if_pos h1]
    cases hp : pickTeacher teachers n g day with
    | none => simp [hp, h1]
    | some t => simp [hp, h1]
  · rw [if_neg h1]
    simp [h1]

theorem countIn_stepLesson (teachers : List Teacher) (g : String) (day : Nat)
    (info : List (String × SubjectData)) (subj : String)
    (hnd : (info.map Prod.fst).Nodup) :
    countIn (info.filterMap (stepLesson teachers g day)) g subj =
      if emits teachers g subj day (alookup subj info) then 1 else 0 := by
  induction info with
  | nil => simp [countIn, alookup, emits]
  | cons p rest ih =>
    simp only [List.map_cons, List.nodup_cons] at hnd
    rw [List.filterMap_cons]
    by_cases hk : p.1 = subj
    · subst hk
      have hrest := countIn_stepLesson_of_not_mem teachers g day rest p.1 hnd.1
      have halk : alookup p.1 (p :: rest) = some p.2 := by simp [alookup]
      rw [halk]
      have hiff := stepLesson_isSome_iff teachers g day p.1 p.2
      rw [show ((p.1, p.2) : String × SubjectData) = p from rfl] at hiff
      cases hstep : stepLesson teachers g day p with
      | none =>
        rw [hstep] at hiff
        simp only [Option.isSome_none] at hiff
        rw [← hiff, if_neg (by simp)]
        exact hrest
      | some l =>
        rw [hstep] at hiff
        simp only [Option.isSome_some] at hiff
        rw [← hiff, if_pos rfl]
        obtain ⟨hg, hs⟩ := stepLesson_fields teachers g day hstep
        rw [countIn_cons, hrest,
          show lessonMatches g p.1 l = true by simp [lessonMatches, hg, hs]]
        rfl
    · have halk : alookup subj (p :: rest) = alookup subj rest := by
        simp [alookup, hk]
      rw [halk]
      cases hstep : stepLesson teachers g day p with
      | none => exact ih hnd.2
      | some l =>
        obtain ⟨hg, hs⟩ := stepLesson_fields teachers g day hstep
        rw [countIn_cons,
          show lessonMatches g subj l = false by
            simp only [lessonMatches, decide_eq_false_iff_not, not_and]
            intro _
            rw [hs]
            exact hk]
        simpa using ih hnd.2

theorem dayCount_zero_of_not_key (cells : DaySched) (g subj : String)
    (hall : ∀ p ∈ cells, ∀ l ∈ p.2, Lesson.group l = p.1) (hout : g ∉ cells.map Prod.fst) :
    dayCount cells g subj = 0 := by
  induction cells with
  | nil => rfl
  | cons p rest ih =>
    simp only [List.map_cons, List.mem_cons, not_or] at hout
    simp only [dayCount, List.map_cons, List.sum_cons]
    have h1 : countIn p.2 g subj = 0 := by
      simp only [countIn, List.length_eq_zero, List.filter_eq_nil]
      intro l hl
      simp only [lessonMatches, decide_eq_true_eq, not_and]
      intro hg
      exact absurd (hg ▸ hall p (List.mem_cons_self p rest) l hl) hout.1
    rw [h1]
    have := ih (fun q hq => hall q (List.mem_cons_of_mem p hq)) hout.2
    simpa [dayCount] using this

theorem dayCount_processDay_aux (teachers : List Teacher) (day : Nat) (st : GSH)
    (g subj : String) :
    (st.map Prod.fst).Nodup → (∀ p ∈ st, (p.2.map Prod.fst).Nodup) →
    dayCount (st.map (fun p => (p.1, (processSubjects teachers p.1 day p.2).1))) g subj =
      if emits teachers g subj day (remOf st g subj) then 1 else 0 := by
  induction st with
  | nil =>
    intro _ _
    simp [dayCount, remOf, alookup, emits]
  | cons p rest ih =>
    intro hout hin
    simp only [List.map_cons, List.nodup_cons] at hout
    simp only [List.map_cons, dayCount, List.sum_cons]
    by_cases hk : p.1 = g
    · subst hk
      have hrem : remOf (p :: rest) p.1 subj = alookup subj p.2 := by
        simp [remOf, alookup]
      rw [hrem]
      have hrest0 : ((rest.map (fun q => (q.1, (processSubjects teachers q.1 day q.2).1))).map
          (fun q => countIn q.2 p.1 subj)).sum = 0 := by
        have := dayCount_zero_of_not_key
          (rest.map (fun q => (q.1, (processSubjects teachers q.1 day q.2).1))) p.1 subj
          (fun q hq l hl => by
            simp only [List.mem_map] at hq
            obtain ⟨q0, hq0, rfl⟩ := hq
            simp only at hl
            rw [processSubjects_eq] at hl
            simp only [List.mem_filterMap] at hl
            obtain ⟨e, he, hstep⟩ := hl
            exact (stepLesson_fields teachers q0.1 day hstep).1)
          (by simpa using hout.1)
        simpa [dayCount] using this
      rw [hrest0, Nat.add_zero, processSubjects_eq]
      exact countIn_stepLesson teachers p.1 day p.2 subj (hin p (List.mem_cons_self p rest))
    · have hrem : remOf (p :: rest) g subj = remOf rest g subj := by
        simp [remOf, alookup, hk]
      rw [hrem]
      have h1 : countIn (processSubjects teachers p.1 day p.2).1 g subj = 0 := by
        rw [processSubjects_eq]
        simp only [countIn, List.length_eq_zero, List.filter_eq_nil]
        intro l hl
        simp only [List.mem_filterMap] at hl
        obtain ⟨e, he, hstep⟩ := hl
        simp only [lessonMatches, decide_eq_true_eq, not_and]
        intro hg
        exact absurd (hg ▸ (stepLesson_fields teachers p.1 day hstep).1).symm hk
      rw [h1]
      have := ih hout.2 (fun q hq => hin q (List.mem_cons_of_mem p hq))
      simpa [dayCount] using this

theorem dayCount_processDay (teachers : List Teacher) (day : Nat) {st : GSH}
    (h : Inv st) (g subj : String) :
    dayCount (processDay teachers day st).1 g subj =
      if emits teachers g subj day (remOf st g subj) then 1 else 0 := by
  rw [processDay_eq]
  exact dayCount_processDay_aux teachers day st g subj h.1 h.2

/-! ### The run, flattened to its chronological day sequence -/

/-- The week-schedule entries a sequence of valid days produces (state
threaded day by day). -/
def schedOfDays (teachers : List Teacher) : List Nat → GSH → WeekSched
  | [], _ => []
  | d :: ds, st =>
    (d, (processDay teachers d st).1) ::
      schedOfDays teachers ds (processDay teachers d st).2

/-- `processWeekDays` is `schedOfDays`/`runState` over the blackout-filtered
day list: a blackout day is skipped with no trace in output or state. -/
theorem processWeekDays_eq (s : SimplifiedSchoolScheduler) (week : Nat)
    (ds : List Nat) (st : GSH) :
    processWeekDays s week ds st =
      (schedOfDays s.teachers (ds.filter (fun d => s.is_valid_day week d)) st,
       runState s.teachers (ds.filter (fun d => s.is_valid_day week d)) st) := by
  induction ds generalizing st with
  | nil => rfl
  | cons d ds ih =>
    by_cases h : s.is_valid_day week d
    · simp [processWeekDays, h, List.filter_cons, ih, schedOfDays, runState]
    · simp [processWeekDays, h, List.filter_cons, ih]

theorem runState_append (t : List Teacher) (l1 l2 : List Nat) (st : GSH) :
    runState t (l1 ++ l2) st = runState t l2 (runState t l1 st) := by
  induction l1 generalizing st with
  | nil => rfl
  | cons d l1 ih => simp [runState, ih]

/-- The schedule structure a sequence of weeks produces. -/
def schedOfWeeks (s : SimplifiedSchoolScheduler) : List Nat → GSH → Schedule
  | [], _ => []
  | w :: ws, st =>
    (w, schedOfDays s.teachers (s.validDays w) st) ::
      schedOfWeeks s ws (runState s.teachers (s.validDays w) st)

theorem processWeeks_eq (s : SimplifiedSchoolScheduler) (ws : List Nat) (st : GSH) :
    processWeeks s ws st =
      (schedOfWeeks s ws st, runState s.teachers (allDaysOf s ws) st) := by
  induction ws generalizing st with
  | nil => rfl
  | cons w ws ih =>
    simp only [processWeeks, processWeekDays_eq, allDaysOf, schedOfWeeks,
      runState_append]
    rw [ih]
    rfl

theorem generate_schedule_eq (s : SimplifiedSchoolScheduler) :
    s.generate_schedule = schedOfWeeks s (List.range s.weeks_per_semester) s.init_state := by
  unfold SimplifiedSchoolScheduler.generate_schedule
  rw [processWeeks_eq]

theorem final_state_eq (s : SimplifiedSchoolScheduler) :
    s.final_state = runState s.teachers s.allDays s.init_state := by
  unfold SimplifiedSchoolScheduler.final_state SimplifiedSchoolScheduler.allDays
  rw [processWeeks_eq]

theorem Inv_runState (t : List Teacher) (ds : List Nat) {st : GSH} (h : Inv st) :
    Inv (runState t ds st) := by
  induction ds generalizing st with
  | nil => exact h
  | cons d ds ih => exact ih (Inv_processDay t d h)

theorem keys_runState (t : List Teacher) (ds : List Nat) (st : GSH) :
    (runState t ds st).map Prod.fst = st.map Prod.fst := by
  induction ds generalizing st with
  | nil => rfl
  | cons d ds ih => rw [runState, ih, keys_processDay]

/-! ### Per-pair trajectory and lesson count -/

/-- The pair's working-state record after a sequence of valid days. -/
def pairTraj (teachers : List Teacher) (g subj : String) :
    List Nat → Option SubjectData → Option SubjectData
  | [], o => o
  | d :: ds, o => pairTraj teachers g subj ds (pairDay teachers g subj d o)

/-- How many lessons the pair receives over a sequence of valid days. -/
def countEmits (teachers : List Teacher) (g subj : String) :
    List Nat → Option SubjectData → Nat
  | [], _ => 0
  | d :: ds, o =>
    (if emits teachers g subj d o then 1 else 0) +
      countEmits teachers g subj ds (pairDay teachers g subj d o)

/-- Number of lesson records for pair `(g, subj)` in one week's entries. -/
def weekCount (wsched : WeekSched) (g subj : String) : Nat :=
  (wsched.map (fun p => dayCount p.2 g subj)).sum

/-- Number of lesson records for pair `(g, subj)` in the whole schedule. -/
def pairCount (sched : Schedule) (g subj : String) : Nat :=
  (sched.map (fun p => weekCount p.2 g subj)).sum

theorem remOf_runState (t : List Teacher) (ds : List Nat) {st : GSH} (h : Inv st)
    (g subj : String) :
    remOf (runState t ds st) g subj = pairTraj t g subj ds (remOf st g subj) := by
  induction ds generalizing st with
  | nil => rfl
  | cons d ds ih =>
    rw [runState, pairTraj, ih (Inv_processDay t d h), remOf_processDay t d h]

theorem pairTraj_append (t : List Teacher) (g subj : String) (l1 l2 : List Nat)
    (o : Option SubjectData) :
    pairTraj t g subj (l1 ++ l2) o = pairTraj t g subj l2 (pairTraj t g subj l1 o) := by
  induction l1 generalizing o with
  | nil => rfl
  | cons d l1 ih => simp [pairTraj, ih]

theorem countEmits_append (t : List Teacher) (g subj : String) (l1 l2 : List Nat)
    (o : Option SubjectData) :
    countEmits t g subj (l1 ++ l2) o =
      countEmits t g subj l1 o + countEmits t g subj l2 (pairTraj t g subj l1 o) := by
  induction l1 generalizing o with
  | nil => simp [countEmits, pairTraj]
  | cons d l1 ih => simp [countEmits, pairTraj, ih, Nat.add_assoc]

theorem weekCount_schedOfDays (t : List Teacher) (ds : List Nat) {st : GSH}
    (h : Inv st) (g subj : String) :
    weekCount (schedOfDays t ds st) g subj =
      countEmits t g subj ds (remOf st g subj) := by
  induction ds generalizing st with
  | nil => rfl
  | cons d ds ih =>
    simp only [schedOfDays, weekCount, List.map_cons, List.sum_cons, countEmits]
    rw [dayCount_processDay t d h g subj, ← remOf_processDay t d h g subj]
    have := ih (Inv_processDay t d h)
    simp only [weekCount] at this
    rw [this]

theorem pairCount_schedOfWeeks (s : SimplifiedSchoolScheduler) (ws : List Nat)
    {st : GSH} (h : Inv st) (g subj : String) :
    pairCount (schedOfWeeks s ws st) g subj =
      countEmits s.teachers g subj (allDaysOf s ws) (remOf st g subj) := by
  induction ws generalizing st with
  | nil => rfl
  | cons w ws ih =>
    simp only [schedOfWeeks, pairCount, List.map_cons, List.sum_cons, allDaysOf,
      countEmits_append]
    rw [weekCount_schedOfDays s.teachers _ h g subj,
      ← remOf_runState s.teachers _ h g subj]
    have := ih (Inv_runState s.teachers (s.validDays w) h)
    simp only [pairCount] at this
    rw [this]

/-! ### Shape of the initial state -/

theorem nodup_keys_foldl_aset {κ α β : Type} [DecidableEq κ] (key : β → κ) (val : β → α)
    (l : List β) (acc : List (κ × α)) (h : (acc.map Prod.fst).Nodup) :
    ((l.foldl (fun a x => aset (key x) (val x) a) acc).map Prod.fst).Nodup := by
  induction l generalizing acc with
  | nil => exact h
  | cons x l ih => exact ih _ (nodup_keys_aset (key x) (val x) h)

theorem mem_foldl_aset {κ α β : Type} [DecidableEq κ] (key : β → κ) (val : β → α)
    (l : List β) (acc : List (κ × α)) {p : κ × α}
    (hp : p ∈ l.foldl (fun a x => aset (key x) (val x) a) acc) :
    (∃ x ∈ l, p = (key x, val x)) ∨ p ∈ acc := by
  induction l generalizing acc with
  | nil => exact Or.inr hp
  | cons x l ih =>
    rcases ih _ hp with ⟨y, hy, hpy⟩ | hmem
    · exact Or.inl ⟨y, List.mem_cons_of_mem x hy, hpy⟩
    · rcases mem_aset hmem with h | h
      · exact Or.inl ⟨x, List.mem_cons_self x l, h⟩
      · exact Or.inr h

theorem Inv_init (s : SimplifiedSchoolScheduler) : Inv s.init_state := by
  constructor
  · exact nodup_keys_foldl_aset Prod.fst
      (fun p => p.2.foldl (fun inner subject =>
        aset subject.name (initSubjectData s.weeks_per_semester subject) inner) [])
      s.group_subjects [] (by simp)
  · intro p hp
    unfold SimplifiedSchoolScheduler.init_state init_group_subject_hours at hp
    rcases mem_foldl_aset Prod.fst
      (fun q => q.2.foldl (fun inner subject =>
        aset subject.name (initSubjectData s.weeks_per_semester subject) inner) [])
      s.group_subjects [] hp with ⟨x, hx, rfl⟩ | h
    · exact nodup_keys_foldl_aset Subject.name
        (initSubjectData s.weeks_per_semester) x.2 [] (by simp)
    · simp at h

/-- Every record in the initial state is an `initSubjectData`: its remaining
hours start at its total hours and its `hours_per_week` is the max-with-1
ceiling value. -/
theorem remOf_init_shape (s : SimplifiedSchoolScheduler) {g subj : String}
    {d : SubjectData} (h : remOf s.init_state g subj = some d) :
    d.remaining_hours = d.total_hours ∧
      d.hours_per_week = hours_per_week d.total_hours s.weeks_per_semester := by
  unfold remOf at h
  cases hg : alookup g s.init_state with
  | none => rw [hg] at h; simp at h
  | some info =>
    rw [hg] at h
    simp only [Option.some_bind] at h
    have hmem := alookup_mem hg
    unfold SimplifiedSchoolScheduler.init_state init_group_subject_hours at hmem
    rcases mem_foldl_aset Prod.fst
      (fun q => q.2.foldl (fun inner subject =>
        aset subject.name (initSubjectData s.weeks_per_semester subject) inner) [])
      s.group_subjects [] hmem with ⟨x, hx, hpx⟩ | habs
    · have hinfo : info = x.2.foldl (fun inner subject =>
          aset subject.name (initSubjectData s.weeks_per_semester subject) inner) [] := by
        have := congrArg Prod.snd hpx
        simpa using this
      subst hinfo
      have hd := alookup_mem h
      rcases mem_foldl_aset Subject.name
        (initSubjectData s.weeks_per_semester) x.2 [] hd with ⟨subject, hsub, hps⟩ | habs2
      · have : d = initSubjectData s.weeks_per_semester subject := by
          have := congrArg Prod.snd hps
          simpa using this
        subst this
        exact ⟨rfl, rfl⟩
      · simp at habs2
    · simp at habs

theorem one_le_hours_per_week (t : Int) (w : Nat) : 1 ≤ hours_per_week t w :=
  le_max_left 1 _

/-! ### Pure per-pair arithmetic -/

/-- Remaining hours of an optional record; a deleted record counts 0
(deletion only ever happens at exactly 0, see `valO_pairTraj`). -/
def valO : Option SubjectData → Int
  | none => 0
  | some d => d.remaining_hours

/-- Remaining hours after `k` further lessons, each depleting
`min hpw remaining`. -/
def remAfter (hpw : Int) : Int → Nat → Int
  | rem, 0 => rem
  | rem, k + 1 => remAfter hpw (rem - min hpw rem) k

/-- The spec's quantity: the sum of `lesson_hours = min(hours_per_week,
remaining_hours)` over `k` chronological emissions starting from budget
`rem`. -/
def sumLessonHours (hpw : Int) : Int → Nat → Int
  | _, 0 => 0
  | rem, k + 1 => min hpw rem + sumLessonHours hpw (rem - min hpw rem) k

theorem sumLessonHours_eq (hpw : Int) (rem : Int) (k : Nat) :
    sumLessonHours hpw rem k = rem - remAfter hpw rem k := by
  induction k generalizing rem with
  | zero => simp [sumLessonHours, remAfter]
  | succ k ih =>
    rw [sumLessonHours, remAfter, ih]
    ring

theorem remAfter_nonneg (hpw : Int) {rem : Int} (h : 0 ≤ rem) (k : Nat) :
    0 ≤ remAfter hpw rem k := by
  induction k generalizing rem with
  | zero => exact h
  | succ k ih =>
    rw [remAfter]
    exact ih (sub_nonneg.mpr (min_le_right hpw rem))

theorem remAfter_eq_max (hpw : Int) (h1 : 1 ≤ hpw) {rem : Int} (h : 0 ≤ rem) (k : Nat) :
    remAfter hpw rem k = max 0 (rem - (k : Int) * hpw) := by
  induction k generalizing rem with
  | zero =>
    rw [remAfter]
    simp [max_eq_right h]
  | succ k ih =>
    rw [remAfter, ih (sub_nonneg.mpr (min_le_right hpw rem))]
    have hk : (0 : Int) ≤ (k : Int) * hpw :=
      mul_nonneg (Int.natCast_nonneg k) (by linarith)
    rcases le_or_lt rem hpw with hc | hc
    · rw [min_eq_right hc]
      have h2 : rem - rem - (k : Int) * hpw ≤ 0 := by linarith
      have h3 : rem - ((k : Nat) + 1 : Int) * hpw ≤ 0 := by
        have : ((k : Nat) + 1 : Int) * hpw = (k : Int) * hpw + hpw := by ring
        linarith [this]
      rw [max_eq_left (by linarith), max_eq_left (by push_cast; linarith)]
    · rw [min_eq_left (le_of_lt hc)]
      congr 1
      push_cast
      ring

/-- The pair model's `hours_per_week` field is the constant `hpw`. -/
def hpwOk (hpw : Int) : Option SubjectData → Prop
  | none => True
  | some d => d.hours_per_week = hpw

theorem hpwOk_pairDay (t : List Teacher) (g subj : String) (day : Nat) (hpw : Int)
    {o : Option SubjectData} (h : hpwOk hpw o) :
    hpwOk hpw (pairDay t g subj day o) := by
  cases o with
  | none => trivial
  | some d =>
    simp only [pairDay]
    unfold stepData
    split
    · split
      · dsimp only
        split
        · trivial
        · simpa [hpwOk] using h
      · simpa [hpwOk] using h
    · simpa [hpwOk] using h

theorem pairTraj_none (t : List Teacher) (g subj : String) (ds : List Nat) :
    pairTraj t g subj ds none = none := by
  induction ds with
  | nil => rfl
  | cons d ds ih => simp [pairTraj, pairDay, ih]

/-- A pair whose remaining hours are already ≤ 0 is never touched again:
the guard `remaining_hours > 0` fails every day. -/
theorem pairTraj_stuck (t : List Teacher) (g subj : String) (ds : List Nat)
    {o : Option SubjectData} (h : valO o ≤ 0) :
    pairTraj t g subj ds o = o := by
  induction ds with
  | nil => rfl
  | cons d ds ih =>
    rw [pairTraj]
    have hstep : pairDay t g subj d o = o := by
      cases o with
      | none => rfl
      | some dd =>
        simp only [valO] at h
        simp only [pairDay]
        unfold stepData
        rw [if_neg (by simpa using h)]
        rfl
    rw [hstep]
    exact ih

/-- Case analysis for one pair-day: either no lesson (record unchanged) or a
lesson depleting `min hpw remaining` with deletion exactly at zero. -/
theorem pairDay_cases (t : List Teacher) (g subj : String) (day : Nat)
    (o : Option SubjectData) :
    (emits t g subj day o = false ∧ pairDay t g subj day o = o) ∨
    (emits t g subj day o = true ∧ ∃ d, o = some d ∧ d.remaining_hours > 0 ∧
      ((d.remaining_hours - min d.hours_per_week d.remaining_hours ≤ 0 ∧
          pairDay t g subj day o = none) ∨
        (d.remaining_hours - min d.hours_per_week d.remaining_hours > 0 ∧
          pairDay t g subj day o =
            some { d with remaining_hours :=
              d.remaining_hours - min d.hours_per_week d.remaining_hours }))) := by
  cases o with
  | none => exact Or.inl ⟨rfl, rfl⟩
  | some d =>
    by_cases h1 : d.remaining_hours > 0
    · cases hp : pickTeacher t subj g day with
      | none =>
        refine Or.inl ⟨?_, ?_⟩
        · simp [emits, hp]
        · simp only [pairDay]
          unfold stepData
          rw [if_pos h1]
          simp [hp]
      | some teacher =>
        refine Or.inr ⟨by simp [emits, h1, hp], d, rfl, h1, ?_⟩
        by_cases h2 : d.remaining_hours - min d.hours_per_week d.remaining_hours ≤ 0
        · refine Or.inl ⟨h2, ?_⟩
          simp only [pairDay]
          unfold stepData
          rw [if_pos h1]
          simp [hp, h2]
        · refine Or.inr ⟨by omega, ?_⟩
          simp only [pairDay]
          unfold stepData
          rw [if_pos h1]
          simp [hp, h2]
    · refine Or.inl ⟨by simp [emits, h1], ?_⟩
      simp only [pairDay]
      unfold stepData
      rw [if_neg h1]
      rfl

theorem countEmits_of_none (t : List Teacher) (g subj : String) (ds : List Nat) :
    countEmits t g subj ds none = 0 := by
  induction ds with
  | nil => rfl
  | cons d ds ih => simpa [countEmits, emits, pairDay] using ih

/-- Refinement of the pair trajectory by pure replay: after any day
sequence, the pair's remaining hours equal `remAfter` of its lesson count,
and deletion happens exactly when that value reaches 0. -/
theorem valO_pairTraj (t : List Teacher) (g subj : String) (ds : List Nat)
    (o : Option SubjectData) (hpw : Int) (hok : hpwOk hpw o) :
    valO (pairTraj t g subj ds o) =
      remAfter hpw (valO o) (countEmits t g subj ds o) := by
  induction ds generalizing o with
  | nil => rfl
  | cons d ds ih =>
    rw [pairTraj, countEmits]
    rcases pairDay_cases t g subj d o with ⟨he, hsame⟩ | ⟨he, dd, rfl, hpos, hcase⟩
    · rw [he, hsame]
      simpa using ih o hok
    · rw [he]
      rw [if_pos rfl]
      have hdd : dd.hours_per_week = hpw := hok
      rcases hcase with ⟨hz, hdel⟩ | ⟨hpos2, hupd⟩
      · have hv0 : dd.remaining_hours - min dd.hours_per_week dd.remaining_hours = 0 :=
          le_antisymm hz (sub_nonneg.mpr (min_le_right _ _))
        rw [hdel, pairTraj_none, countEmits_of_none, Nat.add_comm, remAfter, remAfter]
        simp only [valO]
        rw [← hdd]
        exact hv0.symm
      · have hok2 : hpwOk hpw
            (some { dd with remaining_hours := dd.remaining_hours - (min dd.hours_per_week dd.remaining_hours) }) := hok
        rw [hupd, ih _ hok2, Nat.add_comm, remAfter]
        simp only [valO]
        rw [hdd]

/-- Over a day sequence, every slot with an available teacher depletes the
pair by at least `min hpw remaining`: the final remaining hours are bounded
by the initial ones minus `hpw` per available slot (floored at 0). -/
theorem valO_pairTraj_le (t : List Teacher) (g subj : String) (ds : List Nat)
    (o : Option SubjectData) (hpw : Int) (hok : hpwOk hpw o) (_hhpw : 1 ≤ hpw)
    (hnn : 0 ≤ valO o) :
    valO (pairTraj t g subj ds o) ≤
      max 0 (valO o -
        ((ds.filter (fun day => (pickTeacher t subj g day).isSome)).length : Int) * hpw) := by
  induction ds generalizing o with
  | nil =>
    simp only [pairTraj, List.filter_nil, List.length_nil]
    simp [max_eq_right hnn]
  | cons d ds ih =>
    rw [pairTraj, List.filter_cons]
    by_cases hav : (pickTeacher t subj g d).isSome
    · rw [if_pos hav]
      rcases pairDay_cases t g subj d o with ⟨he, hsame⟩ | ⟨he, dd, rfl, hpos, hcase⟩
      · rw [hsame]
        have hstuck : valO o ≤ 0 := by
          cases o with
          | none => exact le_refl 0
          | some dd =>
            simp only [emits, hav, Bool.and_true] at he
            simp only [valO]
            simpa using of_decide_eq_false he
        rw [pairTraj_stuck t g subj ds hstuck]
        have : (0:Int) ≤ max 0 (valO o - ((List.filter
            (fun day => (pickTeacher t subj g day).isSome) ds).length + 1 : Int) * hpw) :=
          le_max_left 0 _
        calc valO o ≤ 0 := hstuck
        _ ≤ _ := by
          simpa using this
      · have hdd : dd.hours_per_week = hpw := hok
        rcases hcase with ⟨hz, hdel⟩ | ⟨hpos2, hupd⟩
        · rw [hdel, pairTraj_none]
          exact le_max_left 0 _
        · rw [hupd]
          have hok2 : hpwOk hpw
              (some { dd with remaining_hours := dd.remaining_hours - (min dd.hours_per_week dd.remaining_hours) }) := hok
          have hnn2 : (0:Int) ≤ dd.remaining_hours - min dd.hours_per_week dd.remaining_hours :=
            sub_nonneg.mpr (min_le_right _ _)
          have := ih _ hok2 hnn2
          refine this.trans ?_
          simp only [valO, hdd] at *
          rcases le_or_lt dd.remaining_hours hpw with hc | hc
          · rw [min_eq_right hc] at *
            have : dd.remaining_hours - dd.remaining_hours = (0:Int) := by ring
            refine max_le (le_max_left _ _) ?_
            refine le_trans ?_ (le_max_left _ _)
            have hlen : (0:Int) ≤ ((ds.filter
                (fun day => (pickTeacher t subj g day).isSome)).length : Int) :=
              Int.natCast_nonneg _
            nlinarith
          · rw [min_eq_left (le_of_lt hc)] at *
            refine max_le (le_max_left _ _) ?_
            refine le_trans ?_ (le_max_right _ _)
            simp only [List.length_cons]
            push_cast
            ring_nf
            linarith
    · rw [if_neg hav]
      have hsame : pairDay t g subj d o = o := by
        rcases pairDay_cases t g subj d o with ⟨he, hsame⟩ | ⟨he, dd, rfl, hpos, hcase⟩
        · exact hsame
        · exfalso
          simp only [emits] at he
          rcases Bool.and_eq_true_iff.mp he with ⟨-, h2⟩
          exact hav h2
      rw [hsame]
      exact ih o hok hnn

/-! ### Ceiling division -/

/-- For a positive divisor, the source's `(t + h - 1) ediv h` is the
mathematical ceiling of `t / h`. -/
theorem ediv_ceil_eq (t : Int) {h : Int} (hh : 0 < h) :
    Int.ediv (t + h - 1) h = Int.ceil ((t : ℚ) / (h : ℚ)) := by
  have hne : h ≠ 0 := ne_of_gt hh
  have hediv : Int.ediv (t + h - 1) h = (t + h - 1) / h := rfl
  rw [hediv]
  have hdm := Int.ediv_add_emod (t + h - 1) h
  have hr0 : 0 ≤ (t + h - 1) % h := Int.emod_nonneg _ hne
  have hrlt : (t + h - 1) % h < h := Int.emod_lt_of_pos _ hh
  have hhq : (0 : ℚ) < (h : ℚ) := by exact_mod_cast hh
  symm
  rw [Int.ceil_eq_iff]
  constructor
  · rw [lt_div_iff hhq]
    have : ((t + h - 1) / h - 1) * h < t := by nlinarith [hdm, hr0, hrlt]
    calc ((((t + h - 1) / h : Int) : ℚ) - 1) * (h : ℚ)
        = (((t + h - 1) / h - 1 : Int) : ℚ) * ((h : Int) : ℚ) := by push_cast; ring
    _ < ((t : Int) : ℚ) := by exact_mod_cast this
  · rw [div_le_iff hhq]
    have : t ≤ ((t + h - 1) / h) * h := by nlinarith [hdm, hr0, hrlt]
    calc ((t : Int) : ℚ) ≤ ((((t + h - 1) / h) * h : Int) : ℚ) := by exact_mod_cast this
    _ = (((t + h - 1) / h : Int) : ℚ) * (h : ℚ) := by push_cast; ring

/-- `ceil (t / h) ≤ n` iff `t ≤ n * h`, for a positive divisor. -/
theorem ceil_div_le_iff (t : Int) {h : Int} (hh : 0 < h) (n : Int) :
    Int.ceil ((t : ℚ) / (h : ℚ)) ≤ n ↔ t ≤ n * h := by
  rw [Int.ceil_le, div_le_iff (show (0:ℚ) < (h:ℚ) by exact_mod_cast hh)]
  constructor <;> intro hx <;> exact_mod_cast hx

/-! ### Concrete example schedulers exercising the theorems -/

/-- A small concrete curriculum. -/
def exSpec : Specialty :=
  { name := "S",
    subjects_per_semester := [("M", [(1, 3)]), ("Z", [(1, 0)]), ("N", [(1, 4)])] }

/-- A two-week scheduler: subject M has an always-available teacher, subject
Z has zero total hours, and subject N's only teacher prefers day 9, which
never occurs among weekdays 0-4. Slot (0, 1) is a practice day. -/
def exS : SimplifiedSchoolScheduler :=
  { teachers := [{ name := "T1", subject := "M", groups := ["G1"], preferred_days := [] },
                 { name := "T3", subject := "N", groups := ["G1"], preferred_days := [9] }],
    groups := [{ name := "G1", specialty := exSpec, current_semester := 1 }],
    practice_days := [(0, 1)],
    weeks_per_semester := 2 }

/-- A one-week scheduler whose only week is entirely blacked out. -/
def exB : SimplifiedSchoolScheduler :=
  { teachers := [{ name := "T1", subject := "M", groups := ["G1"], preferred_days := [] }],
    groups := [{ name := "G1", specialty := exSpec, current_semester := 1 }],
    practice_days := [(0, 0), (0, 1), (0, 2), (0, 3), (0, 4)],
    weeks_per_semester := 1 }

/-! ### Trajectory invariants -/

theorem pairTraj_pos (t : List Teacher) (g subj : String) (ds : List Nat)
    {d0 : SubjectData} (h : 0 < d0.remaining_hours) :
    ∀ d, pairTraj t g subj ds (some d0) = some d → 0 < d.remaining_hours := by
  induction ds generalizing d0 with
  | nil =>
    intro d hd
    cases hd
    exact h
  | cons day ds ih =>
    intro d hd
    rw [pairTraj] at hd
    rcases pairDay_cases t g subj day (some d0) with ⟨-, hsame⟩ | ⟨-, dd, heq, hpos, hcase⟩
    · rw [hsame] at hd
      exact ih h d hd
    · rw [Option.some.injEq] at heq
      subst heq
      rcases hcase with ⟨-, hdel⟩ | ⟨hpos2, hupd⟩
      · rw [hdel, pairTraj_none] at hd
        cases hd
      · rw [hupd] at hd
        exact ih hpos2 d hd

theorem pairTraj_nonneg (t : List Teacher) (g subj : String) (ds : List Nat)
    {d0 : SubjectData} (h : 0 ≤ d0.remaining_hours) :
    ∀ d, pairTraj t g subj ds (some d0) = some d → 0 ≤ d.remaining_hours := by
  induction ds generalizing d0 with
  | nil =>
    intro d hd
    cases hd
    exact h
  | cons day ds ih =>
    intro d hd
    rw [pairTraj] at hd
    rcases pairDay_cases t g subj day (some d0) with ⟨-, hsame⟩ | ⟨-, dd, heq, hpos, hcase⟩
    · rw [hsame] at hd
      exact ih h d hd
    · rw [Option.some.injEq] at heq
      subst heq
      rcases hcase with ⟨-, hdel⟩ | ⟨hpos2, hupd⟩
      · rw [hdel, pairTraj_none] at hd
        cases hd
      · rw [hupd] at hd
        exact ih (sub_nonneg.mpr (min_le_right _ _)) d hd

/-- Along the trajectory the remaining hours never increase and the
`hours_per_week` field never changes. -/
theorem pairTraj_mono (t : List Teacher) (g subj : String) (ds : List Nat)
    {d0 : SubjectData} (hhpw : 1 ≤ d0.hours_per_week) :
    ∀ d, pairTraj t g subj ds (some d0) = some d →
      d.remaining_hours ≤ d0.remaining_hours ∧ d.hours_per_week = d0.hours_per_week := by
  induction ds generalizing d0 with
  | nil =>
    intro d hd
    cases hd
    exact ⟨le_refl _, rfl⟩
  | cons day ds ih =>
    intro d hd
    rw [pairTraj] at hd
    rcases pairDay_cases t g subj day (some d0) with ⟨-, hsame⟩ | ⟨-, dd, heq, hpos, hcase⟩
    · rw [hsame] at hd
      exact ih hhpw d hd
    · rw [Option.some.injEq] at heq
      subst heq
      rcases hcase with ⟨-, hdel⟩ | ⟨hpos2, hupd⟩
      · rw [hdel, pairTraj_none] at hd
        cases hd
      · rw [hupd] at hd
        have hmin : 0 < min d0.hours_per_week d0.remaining_hours :=
          lt_min (by linarith) hpos
        obtain ⟨h1, h2⟩ := @ih { d0 with remaining_hours := d0.remaining_hours - (min d0.hours_per_week d0.remaining_hours) } hhpw d hd
        refine ⟨?_, h2⟩
        calc d.remaining_hours ≤ d0.remaining_hours - min d0.hours_per_week d0.remaining_hours := h1
        _ ≤ d0.remaining_hours := by linarith

theorem mem_allDaysOf_lt (s : SimplifiedSchoolScheduler) (ws : List Nat) :
    ∀ d ∈ allDaysOf s ws, d < 5 := by
  induction ws with
  | nil => intro d hd; simp [allDaysOf] at hd
  | cons w ws ih =>
    intro d hd
    rw [allDaysOf] at hd
    rcases List.mem_append.mp hd with hd | hd
    · have := List.mem_filter.mp hd
      exact List.mem_range.mp this.1
    · exact ih d hd

/-! ### Run-level glue -/

theorem remOf_final_state (s : SimplifiedSchoolScheduler) (g subj : String) :
    remOf s.final_state g subj =
      pairTraj s.teachers g subj s.allDays (remOf s.init_state g subj) := by
  rw [final_state_eq]
  exact remOf_runState s.teachers s.allDays (Inv_init s) g subj

theorem pairCount_generate_schedule (s : SimplifiedSchoolScheduler) (g subj : String) :
    pairCount s.generate_schedule g subj =
      countEmits s.teachers g subj s.allDays (remOf s.init_state g subj) := by
  rw [generate_schedule_eq]
  exact pairCount_schedOfWeeks s (List.range s.weeks_per_semester) (Inv_init s) g subj

theorem dayCount_le_one_schedOfDays (t : List Teacher) (ds : List Nat) {st : GSH}
    (h : Inv st) (g subj : String) :
    ∀ dp ∈ schedOfDays t ds st, dayCount dp.2 g subj ≤ 1 := by
  induction ds generalizing st with
  | nil =>
    intro dp hdp
    simp [schedOfDays] at hdp
  | cons d ds ih =>
    intro dp hdp
    rw [schedOfDays] at hdp
    rcases List.mem_cons.mp hdp with rfl | hdp
    · show dayCount (processDay t d st).1 g subj ≤ 1
      rw [dayCount_processDay t d h g subj]
      split <;> omega
    · exact ih (Inv_processDay t d h) dp hdp

theorem dayCount_le_one_schedOfWeeks (s : SimplifiedSchoolScheduler) (ws : List Nat)
    {st : GSH} (h : Inv st) (g subj : String) :
    ∀ wp ∈ schedOfWeeks s ws st, ∀ dp ∈ wp.2, dayCount dp.2 g subj ≤ 1 := by
  induction ws generalizing st with
  | nil =>
    intro wp hwp
    simp [schedOfWeeks] at hwp
  | cons w ws ih =>
    intro wp hwp
    rw [schedOfWeeks] at hwp
    rcases List.mem_cons.mp hwp with rfl | hwp
    · intro dp hdp
      exact dayCount_le_one_schedOfDays s.teachers _ h g subj dp hdp
    · exact ih (Inv_runState s.teachers _ h) wp hwp

/-! ### Structure of the emitted schedule -/

theorem mem_of_head?_eq {α : Type} {l : List α} {a : α} (h : l.head? = some a) : a ∈ l := by
  cases l with
  | nil => cases h
  | cons x xs =>
    rw [List.head?_cons, Option.some.injEq] at h
    subst h
    exact List.mem_cons_self x xs

theorem pickTeacher_sound {teachers : List Teacher} {subj g : String} {day : Nat}
    {t : Teacher} (h : pickTeacher teachers subj g day = some t) :
    t ∈ teachers ∧ teacherOk t subj g day = true := by
  unfold pickTeacher available_teachers at h
  exact List.mem_filter.mp (mem_of_head?_eq h)

/-- The chosen teacher is the first teacher in declaration order that
passes the eligibility filter. -/
theorem pickTeacher_eq_find? (teachers : List Teacher) (subj g : String) (day : Nat) :
    pickTeacher teachers subj g day =
      teachers.find? (fun t => teacherOk t subj g day) :=
  head?_filter_eq _ _

theorem stepLesson_inv (teachers : List Teacher) (group : String) (day : Nat)
    {p : String × SubjectData} {l : Lesson} (h : stepLesson teachers group day p = some l) :
    ∃ t, pickTeacher teachers p.1 group day = some t ∧
      l = { group := group, subject := p.1, teacher := t.name, semester := p.2.semester } := by
  unfold stepLesson at h
  split at h
  · cases hpk : pickTeacher teachers p.1 group day with
    | none =>
      rw [hpk] at h
      cases h
    | some t =>
      rw [hpk] at h
      simp only [Option.some.injEq] at h
      exact ⟨t, rfl, h.symm⟩
  · cases h

theorem lessons_processDay_sound (teachers : List Teacher) (day : Nat) (st : GSH) :
    ∀ cp ∈ (processDay teachers day st).1, ∀ l ∈ cp.2,
      l.group = cp.1 ∧
        ∃ t, pickTeacher teachers l.subject l.group day = some t ∧ l.teacher = t.name := by
  rw [processDay_eq]
  intro cp hcp l hl
  simp only [List.mem_map] at hcp
  obtain ⟨q, hq, rfl⟩ := hcp
  simp only at hl
  rw [processSubjects_eq] at hl
  simp only [List.mem_filterMap] at hl
  obtain ⟨p, hp, hstep⟩ := hl
  obtain ⟨t, hpk, rfl⟩ := stepLesson_inv teachers q.1 day hstep
  exact ⟨rfl, t, hpk, rfl⟩

theorem mem_schedOfDays (t : List Teacher) (ds : List Nat) (st : GSH) :
    ∀ dp ∈ schedOfDays t ds st, dp.1 ∈ ds ∧
      ∃ st', (∃ ds0, st' = runState t ds0 st) ∧ dp.2 = (processDay t dp.1 st').1 := by
  induction ds generalizing st with
  | nil =>
    intro dp hdp
    simp [schedOfDays] at hdp
  | cons d ds ih =>
    intro dp hdp
    rw [schedOfDays] at hdp
    rcases List.mem_cons.mp hdp with rfl | hdp
    · exact ⟨List.mem_cons_self d ds, st, ⟨[], rfl⟩, rfl⟩
    · obtain ⟨hmem, st', ⟨ds0, rfl⟩, heq⟩ := ih (processDay t d st).2 dp hdp
      exact ⟨List.mem_cons_of_mem d hmem, runState t ds0 (processDay t d st).2,
        ⟨d :: ds0, rfl⟩, heq⟩

theorem mem_schedOfWeeks (s : SimplifiedSchoolScheduler) (ws : List Nat) (st : GSH) :
    ∀ wp ∈ schedOfWeeks s ws st, wp.1 ∈ ws ∧
      ∃ st', (∃ ds0, st' = runState s.teachers ds0 st) ∧
        wp.2 = schedOfDays s.teachers (s.validDays wp.1) st' := by
  induction ws generalizing st with
  | nil =>
    intro wp hwp
    simp [schedOfWeeks] at hwp
  | cons w ws ih =>
    intro wp hwp
    rw [schedOfWeeks] at hwp
    rcases List.mem_cons.mp hwp with rfl | hwp
    · exact ⟨List.mem_cons_self w ws, st, ⟨[], rfl⟩, rfl⟩
    · obtain ⟨hmem, st', ⟨ds0, rfl⟩, heq⟩ := ih (runState s.teachers (s.validDays w) st) wp hwp
      refine ⟨List.mem_cons_of_mem w hmem,
        runState s.teachers ds0 (runState s.teachers (s.validDays w) st),
        ⟨s.validDays w ++ ds0, ?_⟩, heq⟩
      rw [runState_append]

theorem keys_schedOfDays (t : List Teacher) (ds : List Nat) (st : GSH) :
    (schedOfDays t ds st).map Prod.fst = ds := by
  induction ds generalizing st with
  | nil => rfl
  | cons d ds ih => simp [schedOfDays, ih]

theorem keys_schedOfWeeks (s : SimplifiedSchoolScheduler) (ws : List Nat) (st : GSH) :
    (schedOfWeeks s ws st).map Prod.fst = ws := by
  induction ws generalizing st with
  | nil => rfl
  | cons w ws ih => simp [schedOfWeeks, ih]

theorem alookup_schedOfWeeks (s : SimplifiedSchoolScheduler) (ws : List Nat) :
    ∀ (st : GSH) (w : Nat), w ∈ ws →
      ∃ st', alookup w (schedOfWeeks s ws st) =
        some (schedOfDays s.teachers (s.validDays w) st') := by
  induction ws with
  | nil =>
    intro st w hmem
    cases hmem
  | cons w' ws ih =>
    intro st w hmem
    by_cases hw : w' = w
    · subst hw
      exact ⟨st, by simp [schedOfWeeks, alookup]⟩
    · rcases List.mem_cons.mp hmem with heq | hmem2
      · exact absurd heq.symm hw
      · obtain ⟨st', h⟩ := ih (runState s.teachers (s.validDays w') st) w hmem2
        exact ⟨st', by simp [schedOfWeeks, alookup, hw, h]⟩

/-! ### The claims -/

/-- Claim C5: for every subject, `hours_per_week` equals
`max(1, ceil(total_hours / weeks_per_semester))`; in particular with
`weeks_per_semester = 18`, `total_hours = 90` gives 5, 36 gives 2, and 1
gives 1 (never 0). -/
theorem claim_C5 (total : Int) (w : Nat) (hw : 0 < w) :
    hours_per_week total w = max 1 (Int.ceil ((total : ℚ) / (w : ℚ))) ∧
      hours_per_week 90 18 = 5 ∧ hours_per_week 36 18 = 2 ∧
      hours_per_week 1 18 = 1 := by
  refine ⟨?_, by decide, by decide, by decide⟩
  unfold hours_per_week
  rw [ediv_ceil_eq total (show (0:Int) < (w : Int) by exact_mod_cast hw)]
  norm_num

/-- Witness for claim C5, at 90 total hours over 18 weeks. -/
theorem claim_C5_witness :
    0 < 18 ∧ hours_per_week 90 18 = max 1 (Int.ceil (((90 : Int) : ℚ) / ((18 : Nat) : ℚ))) :=
  ⟨by decide, (claim_C5 90 18 (by decide)).1⟩

/-- Claim C1: for every (group, subject) pair of the run with a non-negative
declared total, (i) the schedule holds at most one lesson for the pair on
any single (week, day); (ii) the sum of lesson_hours
(min(hours_per_week, remaining_hours) at each emission, replayed
chronologically over all the pair's lessons) is at most the declared
total_hours; (iii) the sum equals total_hours whenever some eligible
teacher is available on at least ceil(total_hours / hours_per_week)
non-blackout days of the term. -/
theorem claim_C1 (s : SimplifiedSchoolScheduler) (g subj : String) (d0 : SubjectData)
    (hpair : remOf s.init_state g subj = some d0) (htot : 0 ≤ d0.total_hours) :
    (∀ wp ∈ s.generate_schedule, ∀ dp ∈ wp.2, dayCount dp.2 g subj ≤ 1) ∧
    sumLessonHours d0.hours_per_week d0.total_hours
        (pairCount s.generate_schedule g subj) ≤ d0.total_hours ∧
    (Int.ceil ((d0.total_hours : ℚ) / (d0.hours_per_week : ℚ)) ≤
        ((s.allDays.filter (fun day => (pickTeacher s.teachers subj g day).isSome)).length : Int) →
      sumLessonHours d0.hours_per_week d0.total_hours
        (pairCount s.generate_schedule g subj) = d0.total_hours) := by
  obtain ⟨hrem0, hhpw0⟩ := remOf_init_shape s hpair
  have hhpw1 : 1 ≤ d0.hours_per_week := by
    rw [hhpw0]
    exact one_le_hours_per_week _ _
  have hok : hpwOk d0.hours_per_week (some d0) := rfl
  have hcnt := pairCount_generate_schedule s g subj
  rw [hpair] at hcnt
  have hval := valO_pairTraj s.teachers g subj s.allDays (some d0) d0.hours_per_week hok
  have hvsome : valO (some d0) = d0.total_hours := by
    simp [valO, hrem0]
  have hnn0 : 0 ≤ valO (some d0) := by
    rw [hvsome]
    exact htot
  refine ⟨?_, ?_, ?_⟩
  · rw [generate_schedule_eq]
    exact dayCount_le_one_schedOfWeeks s _ (Inv_init s) g subj
  · rw [hcnt, sumLessonHours_eq]
    have := remAfter_nonneg d0.hours_per_week htot
      (countEmits s.teachers g subj s.allDays (some d0))
    linarith
  · intro hceil
    rw [ceil_div_le_iff _ (lt_of_lt_of_le zero_lt_one hhpw1)] at hceil
    have hle := valO_pairTraj_le s.teachers g subj s.allDays (some d0)
      d0.hours_per_week hok hhpw1 hnn0
    rw [hvsome] at hle hval
    have hmax0 : max 0 (d0.total_hours -
        ((s.allDays.filter (fun day => (pickTeacher s.teachers subj g day).isSome)).length : Int) *
          d0.hours_per_week) = 0 :=
      max_eq_left (by linarith)
    rw [hmax0, hval] at hle
    have hge := remAfter_nonneg d0.hours_per_week htot
      (countEmits s.teachers g subj s.allDays (some d0))
    rw [hcnt, sumLessonHours_eq]
    linarith

/-- Witness for claim C1: pair (G1, M) of `exS`. -/
theorem claim_C1_witness :
    remOf exS.init_state "G1" "M" =
        some { total_hours := 3, hours_per_week := 2, remaining_hours := 3, semester := 1 } ∧
    (0 : Int) ≤ 3 ∧
    sumLessonHours 2 3 (pairCount exS.generate_schedule "G1" "M") ≤ 3 :=
  ⟨by decide, by decide,
    (claim_C1 exS "G1" "M"
      { total_hours := 3, hours_per_week := 2, remaining_hours := 3, semester := 1 }
      (by decide) (by decide)).2.1⟩

/-- Claim C3: over the whole run a pair's remaining_hours (viewed after any
number of processed slots) never becomes negative and is non-increasing;
the trajectory is anchored to `generate_schedule`'s final working-state. -/
theorem claim_C3 (s : SimplifiedSchoolScheduler) (g subj : String) (d0 : SubjectData)
    (hpair : remOf s.init_state g subj = some d0) (htot : 0 ≤ d0.total_hours) :
    (∀ n d, pairTraj s.teachers g subj (s.allDays.take n) (some d0) = some d →
      0 ≤ d.remaining_hours) ∧
    (∀ n m, n ≤ m →
      ∀ dm, pairTraj s.teachers g subj (s.allDays.take m) (some d0) = some dm →
      ∀ dn, pairTraj s.teachers g subj (s.allDays.take n) (some d0) = some dn →
        dm.remaining_hours ≤ dn.remaining_hours) ∧
    remOf s.final_state g subj = pairTraj s.teachers g subj s.allDays (some d0) := by
  obtain ⟨hrem0, hhpw0⟩ := remOf_init_shape s hpair
  have hnn : 0 ≤ d0.remaining_hours := by rw [hrem0]; exact htot
  have hhpw1 : 1 ≤ d0.hours_per_week := by
    rw [hhpw0]
    exact one_le_hours_per_week _ _
  refine ⟨fun n d hd => pairTraj_nonneg s.teachers g subj _ hnn d hd, ?_, ?_⟩
  · intro n m hnm dm hdm dn hdn
    have hsplit : s.allDays.take m = s.allDays.take n ++ (s.allDays.drop n).take (m - n) := by
      rw [← List.take_add]
      congr 1
      omega
    rw [hsplit, pairTraj_append, hdn] at hdm
    have hdninv := pairTraj_mono s.teachers g subj (s.allDays.take n) hhpw1 dn hdn
    have hmid := @pairTraj_mono s.teachers g subj ((s.allDays.drop n).take (m - n))
      dn (by rw [hdninv.2]; exact hhpw1) dm hdm
    exact hmid.1
  · rw [remOf_final_state, hpair]

/-- Witness for claim C3: pair (G1, M) of `exS`. -/
theorem claim_C3_witness :
    remOf exS.init_state "G1" "M" =
        some { total_hours := 3, hours_per_week := 2, remaining_hours := 3, semester := 1 } ∧
    (0 : Int) ≤ 3 ∧
    remOf exS.final_state "G1" "M" = pairTraj exS.teachers "G1" "M" exS.allDays
      (some { total_hours := 3, hours_per_week := 2, remaining_hours := 3, semester := 1 }) :=
  ⟨by decide, by decide,
    (claim_C3 exS "G1" "M"
      { total_hours := 3, hours_per_week := 2, remaining_hours := 3, semester := 1 }
      (by decide) (by decide)).2.2⟩

/-- Claim C4, amended to pairs with positive declared total hours: while the
pair is still pending its remaining hours are strictly positive (so the
record is deleted the very moment its remaining hours would reach ≤ 0, and
only once); once deleted it stays deleted, and all of the pair's lessons
lie before the deletion point. -/
theorem claim_C4 (s : SimplifiedSchoolScheduler) (g subj : String) (d0 : SubjectData)
    (hpair : remOf s.init_state g subj = some d0) (htot : 0 < d0.total_hours) :
    (∀ n d, pairTraj s.teachers g subj (s.allDays.take n) (some d0) = some d →
      0 < d.remaining_hours) ∧
    (∀ n m, n ≤ m → pairTraj s.teachers g subj (s.allDays.take n) (some d0) = none →
      pairTraj s.teachers g subj (s.allDays.take m) (some d0) = none) ∧
    (∀ n, pairTraj s.teachers g subj (s.allDays.take n) (some d0) = none →
      pairCount s.generate_schedule g subj =
        countEmits s.teachers g subj (s.allDays.take n) (some d0)) ∧
    remOf s.final_state g subj = pairTraj s.teachers g subj s.allDays (some d0) := by
  obtain ⟨hrem0, -⟩ := remOf_init_shape s hpair
  have hpos : 0 < d0.remaining_hours := by rw [hrem0]; exact htot
  refine ⟨fun n d hd => pairTraj_pos s.teachers g subj _ hpos d hd, ?_, ?_, ?_⟩
  · intro n m hnm h0
    have hsplit : s.allDays.take m = s.allDays.take n ++ (s.allDays.drop n).take (m - n) := by
      rw [← List.take_add]
      congr 1
      omega
    rw [hsplit, pairTraj_append, h0, pairTraj_none]
  · intro n h0
    rw [pairCount_generate_schedule, hpair]
    conv_lhs => rw [show s.allDays = s.allDays.take n ++ s.allDays.drop n from
      (List.take_append_drop n s.allDays).symm]
    rw [countEmits_append, h0, countEmits_of_none, Nat.add_zero]
  · rw [remOf_final_state, hpair]

/-- Witness for claim C4: pair (G1, M) of `exS` is deleted after its second
lesson (slots 0 and 2 of week 0), and indeed all its lessons lie in the
first two valid slots. -/
theorem claim_C4_witness :
    remOf exS.init_state "G1" "M" =
        some { total_hours := 3, hours_per_week := 2, remaining_hours := 3, semester := 1 } ∧
    (0 : Int) < 3 ∧
    pairTraj exS.teachers "G1" "M" (exS.allDays.take 2)
      (some { total_hours := 3, hours_per_week := 2, remaining_hours := 3, semester := 1 }) = none ∧
    pairCount exS.generate_schedule "G1" "M" =
      countEmits exS.teachers "G1" "M" (exS.allDays.take 2)
        (some { total_hours := 3, hours_per_week := 2, remaining_hours := 3, semester := 1 }) :=
  ⟨by decide, by decide, by decide,
    (claim_C4 exS "G1" "M"
      { total_hours := 3, hours_per_week := 2, remaining_hours := 3, semester := 1 }
      (by decide) (by decide)).2.2.1 2 (by decide)⟩

/-- Counterexample to claim C4 as stated: in `exS`, subject Z of group G1
has total_hours = 0, so its remaining_hours are ≤ 0 from the moment the
working-state is built, yet the pair is never removed from the pending
mapping: it is still present, with remaining_hours ≤ 0, in the final
working-state after the whole run. -/
theorem claim_C4_counterexample :
    remOf exS.init_state "G1" "Z" =
        some { total_hours := 0, hours_per_week := 1, remaining_hours := 0, semester := 1 } ∧
    ({ total_hours := 0, hours_per_week := 1, remaining_hours := 0,
        semester := 1 } : SubjectData).remaining_hours ≤ 0 ∧
    remOf exS.final_state "G1" "Z" =
        some { total_hours := 0, hours_per_week := 1, remaining_hours := 0, semester := 1 } := by
  refine ⟨by decide, by decide, by decide⟩

/-- Claim C9: when no teacher ever passes the eligibility filter for a
pair, each day is a silent no-op for it (the embedding is total, so no
exception can arise): its record is never touched, no lesson for it ever
appears, and its remaining hours stay at total_hours for the whole run. -/
theorem claim_C9 (s : SimplifiedSchoolScheduler) (g subj : String) (d0 : SubjectData)
    (hpair : remOf s.init_state g subj = some d0)
    (hnone : ∀ t ∈ s.teachers, ∀ day, day < 5 → teacherOk t subj g day = false) :
    (∀ st, Inv st → ∀ day, day < 5 →
      remOf (processDay s.teachers day st).2 g subj = remOf st g subj) ∧
    pairCount s.generate_schedule g subj = 0 ∧
    remOf s.final_state g subj = some d0 := by
  have hpick : ∀ day, day < 5 → pickTeacher s.teachers subj g day = none := by
    intro day h5
    unfold pickTeacher available_teachers
    rw [List.filter_eq_nil_iff.mpr (fun t ht => by simp [hnone t ht day h5])]
    rfl
  have hday : ∀ day, day < 5 → ∀ o, pairDay s.teachers g subj day o = o := by
    intro day h5 o
    rcases pairDay_cases s.teachers g subj day o with ⟨-, hsame⟩ | ⟨he, dd, heq, -, -⟩
    · exact hsame
    · exfalso
      subst heq
      simp only [emits, hpick day h5, Option.isSome_none, Bool.and_false] at he
      exact absurd he Bool.false_ne_true
  have key : ∀ ds : List Nat, (∀ d ∈ ds, d < 5) → ∀ o,
      pairTraj s.teachers g subj ds o = o ∧ countEmits s.teachers g subj ds o = 0 := by
    intro ds
    induction ds with
    | nil => exact fun _ o => ⟨rfl, rfl⟩
    | cons d ds ih =>
      intro h5 o
      have hd5 := h5 d (List.mem_cons_self d ds)
      have hem : emits s.teachers g subj d o = false := by
        cases o with
        | none => rfl
        | some dd => simp [emits, hpick d hd5]
      obtain ⟨h1, h2⟩ := ih (fun x hx => h5 x (List.mem_cons_of_mem d hx)) o
      rw [pairTraj, countEmits, hday d hd5 o, hem]
      refine ⟨h1, ?_⟩
      rw [h2]
      simp
  have hmem5 : ∀ d ∈ s.allDays, d < 5 := mem_allDaysOf_lt s _
  refine ⟨?_, ?_, ?_⟩
  · intro st hst day h5
    rw [remOf_processDay s.teachers day hst g subj, hday day h5 _]
  · rw [pairCount_generate_schedule, hpair, (key s.allDays hmem5 (some d0)).2]
  · rw [remOf_final_state, hpair, (key s.allDays hmem5 (some d0)).1]

/-- Witness for claim C9: pair (G1, N) of `exS`, whose only subject-N
teacher prefers day 9. -/
theorem claim_C9_witness :
    remOf exS.init_state "G1" "N" =
        some { total_hours := 4, hours_per_week := 2, remaining_hours := 4, semester := 1 } ∧
    (∀ t ∈ exS.teachers, ∀ day, day < 5 → teacherOk t "N" "G1" day = false) ∧
    pairCount exS.generate_schedule "G1" "N" = 0 :=
  ⟨by decide, by decide,
    (claim_C9 exS "G1" "N"
      { total_hours := 4, hours_per_week := 2, remaining_hours := 4, semester := 1 }
      (by decide) (by decide)).2.1⟩

/-- Claim C2: every lesson record of the generated schedule is taught by a
teacher of the teacher list who teaches that subject, is eligible for the
lesson's group, and either has no day preference or lists the lesson's
weekday among the preferences. -/
theorem claim_C2 (s : SimplifiedSchoolScheduler) :
    ∀ wp ∈ s.generate_schedule, ∀ dp ∈ wp.2, ∀ cp ∈ dp.2, ∀ l ∈ cp.2,
      ∃ t ∈ s.teachers, l.teacher = t.name ∧ t.subject = l.subject ∧
        l.group ∈ t.groups ∧ (t.preferred_days = [] ∨ dp.1 ∈ t.preferred_days) := by
  intro wp hwp dp hdp cp hcp l hl
  rw [generate_schedule_eq] at hwp
  obtain ⟨-, st1, -, hw2⟩ := mem_schedOfWeeks s _ _ wp hwp
  rw [hw2] at hdp
  obtain ⟨-, st2, -, hd2⟩ := mem_schedOfDays s.teachers _ _ dp hdp
  rw [hd2] at hcp
  obtain ⟨-, t, hpk, hname⟩ := lessons_processDay_sound s.teachers dp.1 st2 cp hcp l hl
  obtain ⟨hmem, hok⟩ := pickTeacher_sound hpk
  rw [teacherOk_iff] at hok
  exact ⟨t, hmem, hname, hok.1, hok.2.1, hok.2.2⟩

/-- A single-week, single-valid-day scheduler for witnessing concrete
lesson records. -/
def exC : SimplifiedSchoolScheduler :=
  { teachers := [{ name := "T1", subject := "M", groups := ["G1"], preferred_days := [] }],
    groups := [{ name := "G1",
                 specialty := { name := "S", subjects_per_semester := [("M", [(1, 2)])] },
                 current_semester := 1 }],
    practice_days := [(0, 1), (0, 2), (0, 3), (0, 4)],
    weeks_per_semester := 1 }

/-- Witness for claim C2: the single lesson of `exC`. -/
theorem claim_C2_witness :
    ∃ t ∈ exC.teachers,
      ({ group := "G1", subject := "M", teacher := "T1", semester := 1 } : Lesson).teacher = t.name ∧
      t.subject = ({ group := "G1", subject := "M", teacher := "T1", semester := 1 } : Lesson).subject ∧
      ({ group := "G1", subject := "M", teacher := "T1", semester := 1 } : Lesson).group ∈ t.groups ∧
      (t.preferred_days = [] ∨
        ((0 : Nat), [("G1", [({ group := "G1", subject := "M", teacher := "T1", semester := 1 } : Lesson)])]).1 ∈ t.preferred_days) :=
  claim_C2 exC
    (0, [(0, [("G1", [{ group := "G1", subject := "M", teacher := "T1", semester := 1 }])])])
    (by decide)
    (0, [("G1", [{ group := "G1", subject := "M", teacher := "T1", semester := 1 }])])
    (by decide)
    ("G1", [{ group := "G1", subject := "M", teacher := "T1", semester := 1 }])
    (by decide)
    { group := "G1", subject := "M", teacher := "T1", semester := 1 }
    (by decide)

/-- Claim C7: a blackout (practice) day is skipped outright: processing it
is a complete no-op on schedule and state, the returned schedule has no
entry for that day in its week, and a week all of whose five weekdays are
blacked out is an entry holding no days at all. -/
theorem claim_C7 (s : SimplifiedSchoolScheduler) (w d : Nat)
    (hbl : (w, d) ∈ s.practice_days) :
    (∀ ds st, processWeekDays s w (d :: ds) st = processWeekDays s w ds st) ∧
    (∀ wsched, alookup w s.generate_schedule = some wsched → alookup d wsched = none) ∧
    ((∀ d', d' < 5 → (w, d') ∈ s.practice_days) → w < s.weeks_per_semester →
      alookup w s.generate_schedule = some []) := by
  have hval : s.is_valid_day w d = false := by
    simp [SimplifiedSchoolScheduler.is_valid_day, hbl]
  refine ⟨?_, ?_, ?_⟩
  · intro ds st
    simp [processWeekDays, hval]
  · intro wsched hws
    rw [generate_schedule_eq] at hws
    have hmem := alookup_mem hws
    obtain ⟨-, st', -, hshape⟩ := mem_schedOfWeeks s _ _ (w, wsched) hmem
    simp only at hshape
    rw [hshape, alookup_eq_none_iff, keys_schedOfDays]
    intro hd
    have h2 := (List.mem_filter.mp hd).2
    rw [hval] at h2
    exact absurd h2 (by simp)
  · intro hall hw
    obtain ⟨st', h⟩ := alookup_schedOfWeeks s _ s.init_state w (List.mem_range.mpr hw)
    rw [generate_schedule_eq, h]
    have hvd : s.validDays w = [] := by
      unfold SimplifiedSchoolScheduler.validDays
      rw [List.filter_eq_nil_iff]
      intro d' hd'
      have h5 := List.mem_range.mp hd'
      simp [SimplifiedSchoolScheduler.is_valid_day, hall d' h5]
    rw [hvd]
    rfl

/-- Witness for claim C7: `exB`'s only week is fully blacked out and comes
out as an entry without days. -/
theorem claim_C7_witness :
    (0, 0) ∈ exB.practice_days ∧ alookup 0 exB.generate_schedule = some [] :=
  ⟨by decide, (claim_C7 exB 0 0 (by decide)).2.2 (by decide) (by decide)⟩

/-- The subjects one group contributes: one record per subject of its
specialty that has an hour entry for the group's current semester
(spec-side reformulation of the `_generate_subjects` inner loop). -/
def subjectsOfGroup (group : Group) : List Subject :=
  group.specialty.subjects_per_semester.filterMap (fun p =>
    (alookup group.current_semester p.2).map (fun h =>
      { name := p.1, total_hours := h, groups := [group.name],
        semester := group.current_semester }))

theorem gen_inner_eq (group : Group) :
    ∀ acc : List Subject,
      group.specialty.subjects_per_semester.foldl (fun subjects p =>
        match alookup group.current_semester p.2 with
        | some h => subjects ++ [{ name := p.1, total_hours := h,
                                   groups := [group.name],
                                   semester := group.current_semester }]
        | none => subjects) acc
      = acc ++ subjectsOfGroup group := by
  unfold subjectsOfGroup
  generalize group.specialty.subjects_per_semester = l
  induction l with
  | nil =>
    intro acc
    simp
  | cons p l ih =>
    intro acc
    simp only [List.foldl_cons, List.filterMap_cons]
    cases halk : alookup group.current_semester p.2 with
    | none =>
      rw [ih]
      simp
    | some h =>
      rw [ih]
      simp [List.append_assoc]

theorem _generate_subjects_eq (groups : List Group) :
    _generate_subjects groups = groups.flatMap subjectsOfGroup := by
  unfold _generate_subjects
  have gen : ∀ acc : List Subject,
      groups.foldl (fun subjects group =>
        group.specialty.subjects_per_semester.foldl (fun subjects p =>
          match alookup group.current_semester p.2 with
          | some h => subjects ++ [{ name := p.1, total_hours := h,
                                     groups := [group.name],
                                     semester := group.current_semester }]
          | none => subjects) subjects) acc
      = acc ++ groups.flatMap subjectsOfGroup := by
    induction groups with
    | nil =>
      intro acc
      simp
    | cons g groups ih =>
      intro acc
      simp only [List.foldl_cons, List.flatMap_cons]
      rw [gen_inner_eq g acc, ih]
      simp [List.append_assoc]
  simpa using gen []

theorem subjectsOfGroup_groups (group : Group) :
    ∀ su ∈ subjectsOfGroup group, su.groups = [group.name] := by
  intro su hsu
  unfold subjectsOfGroup at hsu
  simp only [List.mem_filterMap] at hsu
  obtain ⟨p, -, hp⟩ := hsu
  cases halk : alookup group.current_semester p.2 with
  | none =>
    rw [halk] at hp
    cases hp
  | some h =>
    rw [halk] at hp
    simp only [Option.map_some', Option.some.injEq] at hp
    rw [← hp]

/-- A block whose dict holds no key `n` contributes no subject named `n`. -/
theorem block_count_zero (sem : Nat) (gname : String) (n : String)
    (l : List (String × List (Nat × Int))) (hout : n ∉ l.map Prod.fst) :
    ((l.filterMap (fun p => (alookup sem p.2).map (fun h =>
        ({ name := p.1, total_hours := h, groups := [gname],
           semester := sem } : Subject)))).countP
      (fun su => decide (su.name = n ∧ su.groups = [gname]))) = 0 := by
  refine List.countP_eq_zero.mpr ?_
  intro su hsu
  simp only [List.mem_filterMap] at hsu
  obtain ⟨q, hq, hqs⟩ := hsu
  cases halk : alookup sem q.2 with
  | none =>
    rw [halk] at hqs
    cases hqs
  | some h =>
    rw [halk] at hqs
    simp only [Option.map_some', Option.some.injEq] at hqs
    simp only [decide_eq_true_eq, not_and]
    intro hname
    exfalso
    rw [← hqs] at hname
    simp only at hname
    exact hout (hname ▸ List.mem_map_of_mem Prod.fst hq)

theorem block_countP_aux (sem : Nat) (gname : String) (n : String)
    (sh : List (Nat × Int)) :
    ∀ l : List (String × List (Nat × Int)), (l.map Prod.fst).Nodup → (n, sh) ∈ l →
      ((l.filterMap (fun p => (alookup sem p.2).map (fun h =>
          ({ name := p.1, total_hours := h, groups := [gname],
             semester := sem } : Subject)))).countP
        (fun su => decide (su.name = n ∧ su.groups = [gname]))) =
      if (alookup sem sh).isSome then 1 else 0 := by
  intro l
  induction l with
  | nil =>
    intro _ h
    cases h
  | cons p l ih =>
    intro hnd hmem
    simp only [List.map_cons, List.nodup_cons] at hnd
    by_cases hk : p.1 = n
    · subst hk
      have hsh : sh = p.2 := by
        rcases List.mem_cons.mp hmem with heq | hmem2
        · have := congrArg Prod.snd heq
          simpa using this
        · exact absurd (List.mem_map.mpr ⟨(p.1, sh), hmem2, rfl⟩) hnd.1
      subst hsh
      have h0 := block_count_zero sem gname p.1 l hnd.1
      cases halk : alookup sem p.2 with
      | none =>
        simpa [List.filterMap_cons, halk] using h0
      | some h =>
        simp only [List.filterMap_cons, halk, Option.map_some', List.countP_cons, h0,
          Option.isSome_some]
        simp
    · have hmem2 : (n, sh) ∈ l := by
        rcases List.mem_cons.mp hmem with heq | hmem2
        · exfalso
          apply hk
          have := congrArg Prod.fst heq
          simpa using this.symm
        · exact hmem2
      cases halk : alookup sem p.2 with
      | none =>
        simpa [List.filterMap_cons, halk] using ih hnd.2 hmem2
      | some h =>
        have hrec := ih hnd.2 hmem2
        simpa [List.filterMap_cons, halk, List.countP_cons, hk] using hrec

/-- Other groups' blocks contribute no subject scoped to this group name. -/
theorem countP_flatMap_zero (groups : List Group) (gname n : String)
    (hnotin : gname ∉ groups.map Group.name) :
    ((groups.flatMap subjectsOfGroup).countP
      (fun su => decide (su.name = n ∧ su.groups = [gname]))) = 0 := by
  refine List.countP_eq_zero.mpr ?_
  intro su hsu
  rw [List.mem_flatMap] at hsu
  obtain ⟨g, hg, hsg⟩ := hsu
  have hgr := subjectsOfGroup_groups g su hsg
  simp only [decide_eq_true_eq, not_and]
  intro _
  rw [hgr]
  intro he
  have hne : g.name = gname := by
    have := congrArg (fun l => List.head? l) he
    simpa using this
  exact hnotin (hne ▸ List.mem_map_of_mem Group.name hg)

theorem countP_flatMap_gen (groups : List Group) :
    (groups.map Group.name).Nodup → ∀ group ∈ groups,
    (group.specialty.subjects_per_semester.map Prod.fst).Nodup →
    ∀ (n : String) (sh : List (Nat × Int)),
      (n, sh) ∈ group.specialty.subjects_per_semester →
      ((groups.flatMap subjectsOfGroup).countP
        (fun su => decide (su.name = n ∧ su.groups = [group.name]))) =
      if (alookup group.current_semester sh).isSome then 1 else 0 := by
  induction groups with
  | nil =>
    intro _ group hg
    cases hg
  | cons g' groups ih =>
    intro hgn group hg hnd n sh hmem
    simp only [List.map_cons, List.nodup_cons] at hgn
    rw [List.flatMap_cons, List.countP_append]
    rcases List.mem_cons.mp hg with rfl | hg2
    · have h1 := block_countP_aux group.current_semester group.name n sh
        group.specialty.subjects_per_semester hnd hmem
      have h2 := countP_flatMap_zero groups group.name n hgn.1
      rw [show (subjectsOfGroup group).countP
            (fun su => decide (su.name = n ∧ su.groups = [group.name])) =
          if (alookup group.current_semester sh).isSome then 1 else 0 from h1, h2]
      simp
    · have hne : g'.name ≠ group.name := by
        intro he
        exact hgn.1 (he ▸ List.mem_map_of_mem Group.name hg2)
      have h1 : (subjectsOfGroup g').countP
          (fun su => decide (su.name = n ∧ su.groups = [group.name])) = 0 := by
        refine List.countP_eq_zero.mpr ?_
        intro su hsu
        have hgr := subjectsOfGroup_groups g' su hsu
        simp only [decide_eq_true_eq, not_and]
        intro _
        rw [hgr]
        intro he
        apply hne
        have := congrArg (fun l => List.head? l) he
        simpa using this
      rw [h1, ih hgn.2 group hg2 hnd n sh hmem]
      simp

/-- Claim C8: subject expansion emits, for every group and every subject of
its specialty whose hour mapping contains the group's current semester,
exactly one Subject record scoped to [that group's name] with that
semester's hour count; subjects lacking the key are omitted (count 0), and
records are never shared or merged across groups (each is scoped to a
single group name). -/
theorem claim_C8 (s : SimplifiedSchoolScheduler)
    (hgn : (s.groups.map Group.name).Nodup)
    (group : Group) (hg : group ∈ s.groups)
    (hnd : (group.specialty.subjects_per_semester.map Prod.fst).Nodup)
    (n : String) (sh : List (Nat × Int))
    (hmem : (n, sh) ∈ group.specialty.subjects_per_semester) :
    s.subjects = s.groups.flatMap subjectsOfGroup ∧
    (s.subjects.countP
        (fun su => decide (su.name = n ∧ su.groups = [group.name])) =
      if (alookup group.current_semester sh).isSome then 1 else 0) ∧
    (∀ h, alookup group.current_semester sh = some h →
      ({ name := n, total_hours := h, groups := [group.name],
         semester := group.current_semester } : Subject) ∈ s.subjects) := by
  have heq : s.subjects = s.groups.flatMap subjectsOfGroup :=
    _generate_subjects_eq s.groups
  refine ⟨heq, ?_, ?_⟩
  · rw [heq]
    exact countP_flatMap_gen s.groups hgn group hg hnd n sh hmem
  · intro h halk
    rw [heq, List.mem_flatMap]
    refine ⟨group, hg, ?_⟩
    unfold subjectsOfGroup
    rw [List.mem_filterMap]
    refine ⟨(n, sh), hmem, ?_⟩
    rw [show alookup group.current_semester (n, sh).2 = some h from halk]
    rfl

/-- Witness for claim C8: subject M of group G1 in `exS` appears exactly
once with its semester-1 hour count. -/
theorem claim_C8_witness :
    (exS.groups.map Group.name).Nodup ∧
    exS.subjects.countP
      (fun su => decide (su.name = "M" ∧ su.groups = ["G1"])) = 1 :=
  ⟨by decide,
    (claim_C8 exS (by decide)
      { name := "G1", specialty := exSpec, current_semester := 1 } (by decide)
      (by decide) "M" [(1, 3)] (by decide)).2.1⟩

/-! ### Keys of the state and of the per-group index -/

theorem keys_processDay_fst (t : List Teacher) (day : Nat) (st : GSH) :
    ((processDay t day st).1.map Prod.fst) = st.map Prod.fst := by
  rw [processDay_eq]
  simp

theorem map_filterMap_sublist {α β γ : Type} (f : α → Option β) (pr1 : α → γ)
    (pr2 : β → γ) (hf : ∀ a b, f a = some b → pr2 b = pr1 a) (l : List α) :
    ((l.filterMap f).map pr2).Sublist (l.map pr1) := by
  induction l with
  | nil => simp
  | cons a l ih =>
    rw [List.filterMap_cons]
    cases hb : f a with
    | none => exact ih.trans (List.sublist_cons_self _ _)
    | some b =>
      simp only [List.map_cons]
      rw [hf a b hb]
      exact ih.cons₂ _

theorem alookup_of_mem_nodup {κ α : Type} [DecidableEq κ] {l : List (κ × α)}
    (hnd : (l.map Prod.fst).Nodup) {p : κ × α} (hp : p ∈ l) :
    alookup p.1 l = some p.2 := by
  induction l with
  | nil => cases hp
  | cons q rest ih =>
    simp only [List.map_cons, List.nodup_cons] at hnd
    rcases List.mem_cons.mp hp with rfl | hp2
    · simp [alookup]
    · have hne : ¬ q.1 = p.1 := by
        intro he
        exact hnd.1 (he ▸ List.mem_map_of_mem Prod.fst hp2)
      simp [alookup, hne, ih hnd.2 hp2]

/-- A group's pending-subject keys only ever shrink (as a sublist, so in
order) over the run. -/
theorem inner_keys_sublist_runState (t : List Teacher) (ds : List Nat) :
    ∀ (st : GSH) (g : String) (info' : List (String × SubjectData)),
      alookup g (runState t ds st) = some info' →
      ∃ info, alookup g st = some info ∧
        (info'.map Prod.fst).Sublist (info.map Prod.fst) := by
  induction ds with
  | nil =>
    intro st g info' h
    exact ⟨info', h, List.Sublist.refl _⟩
  | cons d ds ih =>
    intro st g info' h
    rw [runState] at h
    obtain ⟨info1, h1, hsub1⟩ := ih _ g info' h
    rw [processDay_eq, alookup_map_key g (fun g info => (processSubjects t g d info).2) st] at h1
    cases hg : alookup g st with
    | none =>
      rw [hg] at h1
      cases h1
    | some info0 =>
      rw [hg] at h1
      simp only [Option.map_some', Option.some.injEq] at h1
      refine ⟨info0, rfl, hsub1.trans ?_⟩
      rw [← h1, processSubjects_eq]
      exact keys_filterMap_sublist _ (fun a b => stepData_key t g d) info0

theorem keys_aset_not_mem {κ α : Type} [DecidableEq κ] {k : κ} (v : α)
    {l : List (κ × α)} (h : k ∉ l.map Prod.fst) :
    (aset k v l).map Prod.fst = l.map Prod.fst ++ [k] := by
  induction l with
  | nil => rfl
  | cons q rest ih =>
    simp only [List.map_cons, List.mem_cons, not_or] at h
    have hk : ¬ q.1 = k := fun he => h.1 he.symm
    simp only [aset, if_neg hk, List.map_cons, ih h.2]
    rfl

theorem keys_foldl_aset_fresh {κ α β : Type} [DecidableEq κ] (key : β → κ) (val : β → α) :
    ∀ (l : List β) (acc : List (κ × α)),
      (l.map key).Nodup → (∀ x ∈ l, key x ∉ acc.map Prod.fst) →
      ((l.foldl (fun a x => aset (key x) (val x) a) acc).map Prod.fst) =
        acc.map Prod.fst ++ l.map key := by
  intro l
  induction l with
  | nil =>
    intro acc _ _
    simp
  | cons x l ih =>
    intro acc hnd hfresh
    simp only [List.map_cons, List.nodup_cons] at hnd
    simp only [List.foldl_cons]
    rw [ih (aset (key x) (val x) acc) hnd.2 ?fresh]
    · rw [keys_aset_not_mem (val x) (hfresh x (List.mem_cons_self x l))]
      simp
    case fresh =>
      intro y hy
      rw [keys_aset_not_mem (val x) (hfresh x (List.mem_cons_self x l))]
      rw [List.mem_append]
      rintro (hmem | hmem)
      · exact hfresh y (List.mem_cons_of_mem x hy) hmem
      · simp only [List.mem_singleton] at hmem
        exact hnd.1 (hmem ▸ List.mem_map_of_mem key hy)

theorem nodup_keys_groups_fold (subject : Subject) (groups : List String) :
    ∀ acc : List (String × List Subject), (acc.map Prod.fst).Nodup →
      (((groups.foldl (fun gs group =>
        match alookup group gs with
        | some l => aset group (l ++ [subject]) gs
        | none => aset group [subject] gs) acc).map Prod.fst).Nodup) := by
  induction groups with
  | nil => exact fun _ h => h
  | cons grp groups ih =>
    intro acc h
    simp only [List.foldl_cons]
    apply ih
    cases halk : alookup grp acc with
    | none => exact nodup_keys_aset _ _ h
    | some l => exact nodup_keys_aset _ _ h

theorem nodup_keys_group_subjects (subjects : List Subject) :
    ((_group_subjects subjects).map Prod.fst).Nodup := by
  unfold _group_subjects
  have gen : ∀ acc : List (String × List Subject), (acc.map Prod.fst).Nodup →
      ((subjects.foldl (fun gs subject =>
        subject.groups.foldl (fun gs group =>
          match alookup group gs with
          | some l => aset group (l ++ [subject]) gs
          | none => aset group [subject] gs) gs) acc).map Prod.fst).Nodup := by
    induction subjects with
    | nil => exact fun _ h => h
    | cons su subjects ih =>
      intro acc h
      simp only [List.foldl_cons]
      exact ih _ (nodup_keys_groups_fold su su.groups acc h)
  exact gen [] (by simp)

theorem mem_keys_groups_fold (subject : Subject) (groups : List String) :
    ∀ (acc : List (String × List Subject)) (g : String),
      (g ∈ ((groups.foldl (fun gs group =>
        match alookup group gs with
        | some l => aset group (l ++ [subject]) gs
        | none => aset group [subject] gs) acc).map Prod.fst)) ↔
      g ∈ acc.map Prod.fst ∨ g ∈ groups := by
  induction groups with
  | nil =>
    intro acc g
    simp
  | cons grp groups ih =>
    intro acc g
    simp only [List.foldl_cons]
    rw [ih]
    have hstep : (g ∈ ((match alookup grp acc with
        | some l => aset grp (l ++ [subject]) acc
        | none => aset grp [subject] acc).map Prod.fst)) ↔
        g = grp ∨ g ∈ acc.map Prod.fst := by
      cases alookup grp acc with
      | none => exact mem_keys_aset _ _ _ _
      | some l => exact mem_keys_aset _ _ _ _
    rw [hstep]
    simp only [List.mem_cons]
    tauto

theorem mem_keys_group_subjects (subjects : List Subject) (g : String) :
    g ∈ (_group_subjects subjects).map Prod.fst ↔ ∃ su ∈ subjects, g ∈ su.groups := by
  unfold _group_subjects
  have gen : ∀ acc : List (String × List Subject),
      (g ∈ ((subjects.foldl (fun gs subject =>
        subject.groups.foldl (fun gs group =>
          match alookup group gs with
          | some l => aset group (l ++ [subject]) gs
          | none => aset group [subject] gs) gs) acc).map Prod.fst)) ↔
      g ∈ acc.map Prod.fst ∨ ∃ su ∈ subjects, g ∈ su.groups := by
    induction subjects with
    | nil =>
      intro acc
      simp
    | cons su subjects ih =>
      intro acc
      simp only [List.foldl_cons]
      rw [ih, mem_keys_groups_fold]
      constructor
      · rintro ((h | h) | h)
        · exact Or.inl h
        · exact Or.inr ⟨su, List.mem_cons_self su subjects, h⟩
        · obtain ⟨x, hx, hgx⟩ := h
          exact Or.inr ⟨x, List.mem_cons_of_mem su hx, hgx⟩
      · rintro (h | ⟨x, hx, hgx⟩)
        · exact Or.inl (Or.inl h)
        · rcases List.mem_cons.mp hx with rfl | hx2
          · exact Or.inl (Or.inr hgx)
          · exact Or.inr ⟨x, hx2, hgx⟩
  rw [gen []]
  simp

theorem keys_init_state (s : SimplifiedSchoolScheduler) :
    s.init_state.map Prod.fst = s.group_subjects.map Prod.fst := by
  unfold SimplifiedSchoolScheduler.init_state init_group_subject_hours
  have hnd : (s.group_subjects.map Prod.fst).Nodup :=
    nodup_keys_group_subjects _
  have := keys_foldl_aset_fresh Prod.fst
    (fun p => p.2.foldl (fun inner subject =>
      aset subject.name (initSubjectData s.weeks_per_semester subject) inner) [])
    s.group_subjects [] hnd (by simp)
  simpa using this

/-- Claim C10: every week index 0..W-1 is a key of the returned schedule
(an empty entry when all its days are blacked out); each week entry holds
exactly its non-blackout days in order; every day cell holds exactly one
key per group of the per-group subject index (an empty lesson list when
nothing could be scheduled); and a group name is in that index iff some
expanded Subject lists it — so a group whose specialty offers no subject
this semester appears nowhere. -/
theorem claim_C10 (s : SimplifiedSchoolScheduler) :
    s.generate_schedule.map Prod.fst = List.range s.weeks_per_semester ∧
    (∀ wp ∈ s.generate_schedule, wp.2.map Prod.fst = s.validDays wp.1) ∧
    (∀ wp ∈ s.generate_schedule, ∀ dp ∈ wp.2,
      dp.2.map Prod.fst = s.group_subjects.map Prod.fst) ∧
    (∀ g : String, g ∈ s.group_subjects.map Prod.fst ↔ ∃ su ∈ s.subjects, g ∈ su.groups) := by
  refine ⟨?_, ?_, ?_, fun g => mem_keys_group_subjects s.subjects g⟩
  · rw [generate_schedule_eq, keys_schedOfWeeks]
  · intro wp hwp
    rw [generate_schedule_eq] at hwp
    obtain ⟨-, st', -, hshape⟩ := mem_schedOfWeeks s _ _ wp hwp
    rw [hshape, keys_schedOfDays]
  · intro wp hwp dp hdp
    rw [generate_schedule_eq] at hwp
    obtain ⟨-, st', ⟨ds0, rfl⟩, hshape⟩ := mem_schedOfWeeks s _ _ wp hwp
    rw [hshape] at hdp
    obtain ⟨-, st'', ⟨ds1, rfl⟩, hcell⟩ := mem_schedOfDays s.teachers _ _ dp hdp
    rw [hcell, keys_processDay_fst, keys_runState, keys_runState, keys_init_state]

/-- Witness for claim C10: in `exS` the week keys are 0 and 1, and G1 is in
the per-group index because subject M lists it. -/
theorem claim_C10_witness :
    exS.generate_schedule.map Prod.fst = List.range 2 ∧
    ("G1" ∈ exS.group_subjects.map Prod.fst ↔ ∃ su ∈ exS.subjects, "G1" ∈ su.groups) :=
  ⟨(claim_C10 exS).1, (claim_C10 exS).2.2.2 "G1"⟩

/-- Claim C6: the allocation is evaluated in the deterministic nested order
weeks (0..W-1 in order), then weekdays (the valid days of the week in
order), then groups (in index insertion order), then subjects (each cell's
lessons follow the group's pending-subject insertion order); the teacher of
every lesson is the first teacher in the teacher list's declaration order
that passes the eligibility filter (`List.find?`), with no other
tie-break. -/
theorem claim_C6 (s : SimplifiedSchoolScheduler) :
    (∀ wp ∈ s.generate_schedule, ∀ dp ∈ wp.2, ∀ cp ∈ dp.2, ∀ l ∈ cp.2,
      ∃ t, s.teachers.find? (fun t' => teacherOk t' l.subject l.group dp.1) = some t ∧
        l.teacher = t.name) ∧
    s.generate_schedule.map Prod.fst = List.range s.weeks_per_semester ∧
    (∀ wp ∈ s.generate_schedule, wp.2.map Prod.fst = s.validDays wp.1) ∧
    (∀ wp ∈ s.generate_schedule, ∀ dp ∈ wp.2,
      dp.2.map Prod.fst = s.init_state.map Prod.fst) ∧
    (∀ wp ∈ s.generate_schedule, ∀ dp ∈ wp.2, ∀ cp ∈ dp.2,
      ∃ info, alookup cp.1 s.init_state = some info ∧
        (cp.2.map Lesson.subject).Sublist (info.map Prod.fst)) := by
  refine ⟨?_, ?_, ?_, ?_, ?_⟩
  · intro wp hwp dp hdp cp hcp l hl
    rw [generate_schedule_eq] at hwp
    obtain ⟨-, st1, -, hw2⟩ := mem_schedOfWeeks s _ _ wp hwp
    rw [hw2] at hdp
    obtain ⟨-, st2, -, hd2⟩ := mem_schedOfDays s.teachers _ _ dp hdp
    rw [hd2] at hcp
    obtain ⟨-, t, hpk, hname⟩ := lessons_processDay_sound s.teachers dp.1 st2 cp hcp l hl
    rw [pickTeacher_eq_find?] at hpk
    exact ⟨t, hpk, hname⟩
  · rw [generate_schedule_eq, keys_schedOfWeeks]
  · intro wp hwp
    rw [generate_schedule_eq] at hwp
    obtain ⟨-, st', -, hshape⟩ := mem_schedOfWeeks s _ _ wp hwp
    rw [hshape, keys_schedOfDays]
  · intro wp hwp dp hdp
    rw [generate_schedule_eq] at hwp
    obtain ⟨-, st', ⟨ds0, rfl⟩, hshape⟩ := mem_schedOfWeeks s _ _ wp hwp
    rw [hshape] at hdp
    obtain ⟨-, st'', ⟨ds1, rfl⟩, hcell⟩ := mem_schedOfDays s.teachers _ _ dp hdp
    rw [hcell, keys_processDay_fst, keys_runState, keys_runState]
  · intro wp hwp dp hdp cp hcp
    rw [generate_schedule_eq] at hwp
    obtain ⟨-, st', ⟨ds0, rfl⟩, hshape⟩ := mem_schedOfWeeks s _ _ wp hwp
    rw [hshape] at hdp
    obtain ⟨-, st'', ⟨ds1, rfl⟩, hcell⟩ := mem_schedOfDays s.teachers _ _ dp hdp
    rw [hcell, processDay_eq] at hcp
    simp only [List.mem_map] at hcp
    obtain ⟨q, hq, rfl⟩ := hcp
    have hrw : runState s.teachers ds1 (runState s.teachers ds0 s.init_state) =
        runState s.teachers (ds0 ++ ds1) s.init_state :=
      (runState_append s.teachers ds0 ds1 s.init_state).symm
    have hst : Inv (runState s.teachers (ds0 ++ ds1) s.init_state) :=
      Inv_runState s.teachers _ (Inv_init s)
    have halk : alookup q.1 (runState s.teachers (ds0 ++ ds1) s.init_state) = some q.2 := by
      rw [← hrw]
      exact alookup_of_mem_nodup (by rw [hrw]; exact hst.1) hq
    obtain ⟨info, hinfo, hsub⟩ :=
      inner_keys_sublist_runState s.teachers (ds0 ++ ds1) s.init_state q.1 q.2 halk
    refine ⟨info, hinfo, ?_⟩
    refine (List.Sublist.trans ?_ hsub)
    show (((processSubjects s.teachers q.1 dp.1 q.2).1).map Lesson.subject).Sublist
      (q.2.map Prod.fst)
    rw [processSubjects_eq]
    exact map_filterMap_sublist (stepLesson s.teachers q.1 dp.1) Prod.fst Lesson.subject
      (fun a b hb => (stepLesson_fields s.teachers q.1 dp.1 hb).2) q.2

/-- Witness for claim C6: the single lesson of `exC` is taught by the first
eligible teacher in declaration order. -/
theorem claim_C6_witness :
    ∃ t, exC.teachers.find? (fun t' => teacherOk t'
        ({ group := "G1", subject := "M", teacher := "T1", semester := 1 } : Lesson).subject
        ({ group := "G1", subject := "M", teacher := "T1", semester := 1 } : Lesson).group
        ((0 : Nat), [("G1", [({ group := "G1", subject := "M", teacher := "T1", semester := 1 } : Lesson)])]).1) = some t ∧
      ({ group := "G1", subject := "M", teacher := "T1", semester := 1 } : Lesson).teacher = t.name :=
  (claim_C6 exC).1
    (0, [(0, [("G1", [{ group := "G1", subject := "M", teacher := "T1", semester := 1 }])])])
    (by decide)
    (0, [("G1", [{ group := "G1", subject := "M", teacher := "T1", semester := 1 }])])
    (by decide)
    ("G1", [{ group := "G1", subject := "M", teacher := "T1", semester := 1 }])
    (by decide)
    { group := "G1", subject := "M", teacher := "T1", semester := 1 }
    (by decide)

end Sched
